import Mathlib

/-!
Verification development for the cluster-analysis repository
(`alg_p3_core.py` plus its collaborators).

Modelling conventions:

* Coordinates, populations and risks are modelled as rationals (`ℚ`).
  The Python code stores the Euclidean distance `sqrt(dx^2 + dy^2)`;
  since `sqrt` is a strictly monotone bijection on nonnegative reals, every
  comparison of distances made by the algorithms is equivalent to the same
  comparison of squared distances.  The model therefore tracks squared
  distances (exact rationals) in the slot where the Python code tracks
  distances; `float('inf')` becomes `⊤ : WithTop ℚ`.
* Python lists become `List`, `list.sort(key=...)` becomes a stable sort
  (Python's Timsort is stable): sorting pairs `(original index, element)`
  by the key and then by original index.
* Python's negative-index access and `IndexError` are modelled explicitly:
  fallible functions return `Option`, with `none` standing for a raised
  `IndexError`.
* Python object identity: list elements are distinct objects in every run
  of the program; in the value-level model this is reflected by `Nodup` /
  pairwise-disjointness hypotheses where `list.remove` / `list.index`
  (which compare by identity, `Cluster` not overriding `__eq__`) matter.
-/

/-- Modelled from the spec: the `Cluster` entity of the missing
`alg_cluster.py` (§3, §4.1 of the spec): a set of member identifiers,
a 2-D center, a population and a secondary attribute.  Identifiers are
opaque keys, modelled as naturals.  Field names follow the accessors
used by `alg_p3_core.py`. -/
structure Cluster where
  fips_codes : Finset ℕ
  horiz_center : ℚ
  vert_center : ℚ
  total_population : ℚ
  averaged_risk : ℚ
deriving DecidableEq

instance : Inhabited Cluster := ⟨⟨∅, 0, 0, 0, 0⟩⟩

/-- Squared Euclidean distance between two cluster centers.  The Python
`Cluster.distance` (modelled from the spec, §4.1) returns the square root
of this quantity; see the module docstring for the order-isomorphism. -/
def Cluster.distSq (a b : Cluster) : ℚ :=
  (a.horiz_center - b.horiz_center)^2 + (a.vert_center - b.vert_center)^2

/-- Modelled from the spec (§4.1, missing `alg_cluster.py`): `merge`
takes the union of the member sets, sums the populations, and forms the
population-weighted averages of centers and attributes, falling back to
the receiver's center (and attribute 0) when the total population is 0. -/
def Cluster.merge_clusters (a b : Cluster) : Cluster :=
  let pop := a.total_population + b.total_population
  if pop = 0 then
    { fips_codes := a.fips_codes ∪ b.fips_codes
      horiz_center := a.horiz_center
      vert_center := a.vert_center
      total_population := pop
      averaged_risk := 0 }
  else
    { fips_codes := a.fips_codes ∪ b.fips_codes
      horiz_center := (a.horiz_center * a.total_population +
        b.horiz_center * b.total_population) / pop
      vert_center := (a.vert_center * a.total_population +
        b.vert_center * b.total_population) / pop
      total_population := pop
      averaged_risk := (a.averaged_risk * a.total_population +
        b.averaged_risk * b.total_population) / pop }

/-- In either branch of `merge_clusters`, members unite and populations add. -/
theorem merge_clusters_fips (a b : Cluster) :
    (a.merge_clusters b).fips_codes = a.fips_codes ∪ b.fips_codes := by
  unfold Cluster.merge_clusters
  by_cases h : a.total_population + b.total_population = 0 <;> simp [h]

theorem merge_clusters_pop (a b : Cluster) :
    (a.merge_clusters b).total_population =
      a.total_population + b.total_population := by
  unfold Cluster.merge_clusters
  by_cases h : a.total_population + b.total_population = 0 <;> simp [h]

/-! ### Python's stable sort

`list.sort(key = f)` keeps elements with equal keys in their original
relative order.  Semantically this is sorting the index-tagged list by
the key, breaking ties by the original index. -/

/-- The (total, transitive, index-antisymmetric) order used to model
Python's stable `list.sort(key = ...)`. -/
def keyRel {α : Type} (key : α → ℚ) : ℕ × α → ℕ × α → Prop :=
  fun a b => key a.2 < key b.2 ∨ (key a.2 = key b.2 ∧ a.1 ≤ b.1)

instance {α : Type} (key : α → ℚ) : DecidableRel (keyRel key) := by
  intro a b
  unfold keyRel
  infer_instance

instance {α : Type} (key : α → ℚ) : IsTotal (ℕ × α) (keyRel key) := by
  constructor
  intro a b
  unfold keyRel
  rcases lt_trichotomy (key a.2) (key b.2) with h | h | h
  · exact Or.inl (Or.inl h)
  · rcases Nat.le_total a.1 b.1 with h2 | h2
    · exact Or.inl (Or.inr ⟨h, h2⟩)
    · exact Or.inr (Or.inr ⟨h.symm, h2⟩)
  · exact Or.inr (Or.inl h)

instance {α : Type} (key : α → ℚ) : IsTrans (ℕ × α) (keyRel key) := by
  constructor
  intro a b c hab hbc
  unfold keyRel at *
  rcases hab with h1 | ⟨h1, h1i⟩ <;> rcases hbc with h2 | ⟨h2, h2i⟩
  · exact Or.inl (h1.trans h2)
  · exact Or.inl (h2 ▸ h1)
  · exact Or.inl (h1 ▸ h2)
  · exact Or.inr ⟨h1.trans h2, h1i.trans h2i⟩

/-- Model of Python's stable `list.sort(key = key)` (ascending). -/
def pySort {α : Type} (key : α → ℚ) (l : List α) : List α :=
  (l.enum.insertionSort (keyRel key)).map Prod.snd

theorem pySort_perm {α : Type} (key : α → ℚ) (l : List α) :
    List.Perm (pySort key l) l := by
  have h1 : List.Perm ((l.enum.insertionSort (keyRel key)).map Prod.snd)
      (l.enum.map Prod.snd) := (List.perm_insertionSort _ _).map _
  simpa [pySort, List.enum_map_snd] using h1

theorem pySort_length {α : Type} (key : α → ℚ) (l : List α) :
    (pySort key l).length = l.length :=
  (pySort_perm key l).length_eq

theorem pySort_nodup {α : Type} (key : α → ℚ) {l : List α}
    (h : l.Nodup) : (pySort key l).Nodup :=
  ((pySort_perm key l).nodup_iff).2 h

theorem pySort_mem {α : Type} (key : α → ℚ) {l : List α} {a : α} :
    a ∈ pySort key l ↔ a ∈ l :=
  (pySort_perm key l).mem_iff

/-- The model sort really sorts: keys are monotone along the output. -/
theorem pySort_sorted {α : Type} (key : α → ℚ) (l : List α) :
    (pySort key l).Pairwise (fun a b => key a ≤ key b) := by
  have h := List.sorted_insertionSort (keyRel key) l.enum
  unfold pySort
  refine List.Pairwise.map Prod.snd ?_ h
  intro a b hab
  rcases hab with h1 | ⟨h1, _⟩
  · exact le_of_lt h1
  · exact le_of_eq h1

/-! ### Translation of `alg_p3_core.py` -/

/-- `range(a, b)` of Python (empty when `b ≤ a`). -/
def pyRange (a b : ℕ) : List ℕ := (List.range (b - a)).map (a + ·)

/-- The answer triple of the closest-pair routines: the (squared) distance
slot — `⊤` models `float('inf')` — and the two integer indices (the code
uses `-1` as sentinel, so the indices are integers). -/
abbrev CPTriple := WithTop ℚ × ℤ × ℤ

/-- `pair_distance` of `alg_p3_core.py` (squared-distance model). -/
def pair_distance (l : List Cluster) (i j : ℕ) : ℚ × ℕ × ℕ :=
  ((l.getD i default).distSq (l.getD j default), min i j, max i j)

/-- The loop body shared by `slow_closest_pair`'s double scan: on a pair
of distinct indices, replace the accumulator on strict improvement. -/
def slow_update (l : List Cluster) (i j : ℕ) (acc : CPTriple) : CPTriple :=
  if i ≠ j then
    let t := pair_distance l i j
    if (t.1 : WithTop ℚ) < acc.1 then ((t.1 : WithTop ℚ), (i : ℤ), (j : ℤ))
    else acc
  else acc

/-- `slow_closest_pair` of `alg_p3_core.py`: brute-force scan of all
ordered pairs of distinct indices, keeping the first strict improvement. -/
def slow_closest_pair (l : List Cluster) : CPTriple :=
  (List.range l.length).foldl (fun acc i =>
    (List.range l.length).foldl (fun acc2 j => slow_update l i j acc2) acc)
    (⊤, -1, -1)

/-- The vertical strip of `closest_pair_strip`: the clusters within
(squared) half-width of the mid line, sorted by vertical center. -/
def strip_list (l : List Cluster) (mid : ℚ) (hwSq : WithTop ℚ) :
    List Cluster :=
  pySort (fun c => c.vert_center)
    (l.filter (fun c => (((c.horiz_center - mid)^2 : ℚ) : WithTop ℚ) ≤ hwSq))

/-- The inner-loop body of `closest_pair_strip`: on improvement, record
the distance and the positions of the two strip clusters in the original
list (`list.index`, first occurrence). -/
def strip_update (s l : List Cluster) (i j : ℕ) (acc : CPTriple) :
    CPTriple :=
  if i ≠ j then
    let t := pair_distance s i j
    if (t.1 : WithTop ℚ) < acc.1 then
      ((t.1 : WithTop ℚ), (l.indexOf (s.getD i default) : ℤ),
        (l.indexOf (s.getD j default) : ℤ))
    else acc
  else acc

/-- The index normalization run after each inner loop of
`closest_pair_strip` (`if dist_d[1] > dist_d[2]: swap`). -/
def strip_swap (acc : CPTriple) : CPTriple :=
  if acc.2.2 < acc.2.1 then (acc.1, acc.2.2, acc.2.1) else acc

/-- `closest_pair_strip` of `alg_p3_core.py`.  `hwSq` is the squared
half-width (the squared current best distance); the membership test
`abs(x - mid) <= half_width` becomes `(x - mid)^2 ≤ hwSq`, which is
equivalent since both sides are nonnegative.  Recovered indices use
`list.index`, i.e. the first occurrence in the original list. -/
def closest_pair_strip (l : List Cluster) (mid : ℚ) (hwSq : WithTop ℚ) :
    CPTriple :=
  let s := strip_list l mid hwSq
  let n := s.length
  (List.range (n - 1)).foldl (fun acc i =>
    strip_swap ((pyRange (i + 1) (min (i + 3) (n - 1) + 1)).foldl
      (fun a j => strip_update s l i j a) acc))
    (⊤, -1, -1)

/-- `fast_closest_pair` of `alg_p3_core.py`: divide and conquer with the
brute-force base case at `n ≤ 3`. -/
def fast_closest_pair (l : List Cluster) : CPTriple :=
  if l.length ≤ 3 then slow_closest_pair l
  else
    let n := l.length
    let m := n / 2
    let dl := fast_closest_pair (l.take m)
    let dr := fast_closest_pair (l.drop m)
    let dt : CPTriple :=
      if dl.1 ≤ dr.1 then dl else (dr.1, dr.2.1 + (m : ℤ), dr.2.2 + (m : ℤ))
    let mid := (1 / 2 : ℚ) *
      ((l.getD (m - 1) default).horiz_center + (l.getD m default).horiz_center)
    let ds := closest_pair_strip l mid dt.1
    if dt.1 ≤ ds.1 then dt else ds
termination_by l.length
decreasing_by
  · simp only [List.length_take]
    omega
  · simp only [List.length_drop]
    omega

/-! ### Python list-index semantics -/

/-- Python's list subscript: `l[i]` accepts `-n ≤ i < n`, with negative
indices counting from the end; anything else raises `IndexError` (`none`). -/
def pyIdx (n : ℕ) (i : ℤ) : Option ℕ :=
  if 0 ≤ i ∧ i < (n : ℤ) then some i.toNat
  else if -(n : ℤ) ≤ i ∧ i < 0 then some ((n : ℤ) + i).toNat
  else none

/-! ### `hierarch_clustering`

The Python loop body reads the two clusters at the indices returned by
`fast_closest_pair` (identity objects), merges the first in place (so the
merged object is the very object stored at the first index), appends it,
then removes both original objects by identity.  The net effect on the
list value is: drop the two positions, append the merged value; when both
indices denote the same position (the `n = 1` self-merge), the net effect
is just dropping that position.  `none` models the `IndexError` raised
when an index is out of range (e.g. `cluster_list[-1]` on an empty list). -/
def merge_step (l : List Cluster) (i j : ℤ) : Option (List Cluster) :=
  match pyIdx l.length i, pyIdx l.length j with
  | some p, some q =>
      if p = q then some (l.eraseIdx p)
      else
        let a := l.getD p default
        let b := l.getD q default
        some ((if p < q then (l.eraseIdx q).eraseIdx p
               else (l.eraseIdx p).eraseIdx q) ++ [a.merge_clusters b])
  | _, _ => none

theorem pyIdx_lt {n : ℕ} {i : ℤ} {p : ℕ} (h : pyIdx n i = some p) : p < n := by
  unfold pyIdx at h
  split at h
  · injection h with h
    omega
  · split at h
    · injection h with h
      omega
    · exact absurd h (by simp)

theorem merge_step_length {l : List Cluster} {i j : ℤ} {l2 : List Cluster}
    (h : merge_step l i j = some l2) : l2.length + 1 = l.length := by
  unfold merge_step at h
  cases hp : pyIdx l.length i with
  | none => rw [hp] at h; simp at h
  | some p =>
    cases hq : pyIdx l.length j with
    | none => rw [hp, hq] at h; simp at h
    | some q =>
      rw [hp, hq] at h
      have hpl := pyIdx_lt hp
      have hql := pyIdx_lt hq
      by_cases hpq : p = q
      · simp only [hpq, if_true] at h
        cases h
        simp only [List.length_eraseIdx]
        split_ifs <;> omega
      · simp only [hpq, if_false] at h
        cases h
        by_cases hlt : p < q <;>
          simp only [hlt, if_true, if_false, List.length_append,
            List.length_cons, List.length_nil, List.length_eraseIdx] <;>
          split_ifs <;> omega

/-- `hierarch_clustering` of `alg_p3_core.py`: sort by horizontal center,
find the closest pair, merge it, until the length is at most the target.
`none` models an `IndexError` escaping the loop. -/
def hierarch_clustering (l : List Cluster) (num_clusters : ℤ) :
    Option (List Cluster) :=
  if h : (l.length : ℤ) ≤ num_clusters then some l
  else
    let s := pySort (fun c => c.horiz_center) l
    let r := fast_closest_pair s
    match h2 : merge_step s r.2.1 r.2.2 with
    | none => none
    | some l2 => hierarch_clustering l2 num_clusters
termination_by l.length
decreasing_by
  have h3 := merge_step_length h2
  have h4 : s.length = l.length := pySort_length _ _
  omega

/-! ### `kmeans_clustering` -/

/-- The "empty" accumulator created each round:
`alg_cluster.Cluster(set([]), 0, 0, 1, 0)` — note the population of 1
(fourth constructor argument), not 0. -/
def empty_accumulator : Cluster := ⟨∅, 0, 0, 1, 0⟩

/-- The inner scan of `kmeans_clustering`: find the index of the nearest
of the first `k` entries of `starting` (first strict improvement wins,
starting from `(inf, -1)`); `none` models the `IndexError` raised when
`starting` has fewer than `k` entries. -/
def min_center_index (starting : List Cluster) (k : ℕ) (c : Cluster) :
    Option ℤ :=
  ((List.range k).foldlM (fun (st : WithTop ℚ × ℤ) j =>
    match starting.get? j with
    | none => none
    | some s =>
        let d := c.distSq s
        some (if (d : WithTop ℚ) < st.1 then ((d : WithTop ℚ), (j : ℤ)) else st))
    ((⊤ : WithTop ℚ), (-1 : ℤ))).map (fun st : WithTop ℚ × ℤ => st.2)

/-- One outer iteration of `kmeans_clustering`: build `k` fresh
accumulators, fold every cluster of `temp` into the accumulator with the
nearest current center (in-place merge on the accumulator list), then
replace the first `k` entries of `starting` by the accumulators (the
Python loop `starting_clusters[idx_3] = c_list[idx_3]` raises `IndexError`
when `starting` is shorter than `k`). -/
def kmeans_round (temp starting : List Cluster) (k : ℕ) :
    Option (List Cluster) :=
  (temp.foldlM (fun (cl : List Cluster) (c : Cluster) =>
    match min_center_index starting k c with
    | none => none
    | some mi =>
        match pyIdx cl.length mi with
        | none => none
        | some p => some (cl.set p ((cl.getD p default).merge_clusters c)))
    (List.replicate k empty_accumulator)).bind
    (fun cl => if k ≤ starting.length then some cl else none)

/-- `kmeans_clustering` of `alg_p3_core.py`: copy and sort the input by
descending population (stable), seed with the first `num_clusters`
entries, and run `num_iterations` rounds. -/
def kmeans_clustering (cluster_list : List Cluster) (num_clusters : ℕ)
    (num_iterations : ℕ) : Option (List Cluster) :=
  let temp := pySort (fun c => -c.total_population) cluster_list
  let starting := temp.take num_clusters
  (List.range num_iterations).foldlM
    (fun st _ => kmeans_round temp st num_clusters) starting

/-! ### Distortion and the distortion-vs-cluster-count sweep -/

/-- Modelled from the spec (§6): one record of the externally loaded data
table — identifier, coordinates, population, risk.  `load_data_table`
performs file I/O and is modelled by passing the table as a parameter. -/
structure DataRow where
  fips : ℕ
  horiz : ℚ
  vert : ℚ
  population : ℚ
  risk : ℚ
deriving DecidableEq

/-- Modelled from the spec (§4.1, missing `alg_cluster.py`):
`cluster_error` — the sum over the cluster's member keys of the member's
population times the squared distance from the cluster center to the
member's coordinates, looked up by identifier (0 for an absent key). -/
def cluster_error (table : List DataRow) (c : Cluster) : ℚ :=
  c.fips_codes.sum (fun id =>
    match table.find? (fun r => r.fips = id) with
    | some r => r.population *
        ((c.horiz_center - r.horiz)^2 + (c.vert_center - r.vert)^2)
    | none => 0)

/-- `compute_distortion` of `alg_p3_core.py`: the sum of the cluster
errors over a cluster list (the table re-load is the passed table). -/
def compute_distortion (table : List DataRow) (l : List Cluster) : ℚ :=
  (l.map (cluster_error table)).sum

/-- The singleton-cluster list built from the data table rows
(`dist_vs_clusters`, lines 298-301 of `alg_p3_core.py`). -/
def singletons (table : List DataRow) : List Cluster :=
  table.map (fun r => ⟨{r.fips}, r.horiz, r.vert, r.population, r.risk⟩)

/-- `dist_vs_clusters` of `alg_p3_core.py`: k-means distortions for every
cluster count from `min_clusters` to `max_clusters` (independent runs on
the singleton list), then hierarchical distortions obtained by reducing
one shared list downward from `max_clusters`, reversed into ascending
order; returns `[kmeans_distortions, hierarch_distort]`. -/
def dist_vs_clusters (table : List DataRow)
    (min_clusters max_clusters num_iterations : ℕ) :
    Option (List (List ℚ)) := do
  let singleton_list := singletons table
  let kmeans_distortions ← (pyRange min_clusters (max_clusters + 1)).mapM
    (fun idx => (kmeans_clustering singleton_list idx num_iterations).map
      (compute_distortion table))
  let cl0 ← hierarch_clustering singleton_list (max_clusters : ℤ)
  let st ← ((pyRange min_clusters max_clusters).reverse).foldlM
    (fun (st : List Cluster × List ℚ) (idx : ℕ) => do
      let cl2 ← hierarch_clustering st.1 (idx : ℤ)
      pure (cl2, st.2 ++ [compute_distortion table cl2]))
    (cl0, [compute_distortion table cl0])
  pure [kmeans_distortions, st.2.reverse]

/-! ### Reference-store model of `kmeans_clustering` (frame property)

To state what `kmeans_clustering` does *not* do to its caller-visible
state, Python objects are made explicit: an object store (`objects`,
indexed by reference) and the caller's list object (`input_refs`, the
references it holds).  Every statement of the source is translated on
this state: `list(cluster_list)` copies the reference list,
`cluster_list_temp.sort(...)` sorts the copy, accumulators are fresh
objects appended to the store, and `merge_clusters` writes only at the
receiving accumulator's reference. -/

/-- The inner nearest-center scan, on references. -/
def min_center_index_ref (objects : List Cluster) (starting : List ℕ)
    (k : ℕ) (r : ℕ) : Option ℤ :=
  ((List.range k).foldlM (fun (st : WithTop ℚ × ℤ) j =>
    match starting.get? j with
    | none => none
    | some sr =>
        let d := (objects.getD r default).distSq (objects.getD sr default)
        some (if (d : WithTop ℚ) < st.1 then ((d : WithTop ℚ), (j : ℤ)) else st))
    ((⊤ : WithTop ℚ), (-1 : ℤ))).map (fun st : WithTop ℚ × ℤ => st.2)

/-- One k-means round on the store: append `k` fresh accumulator objects,
fold each input object into the nearest accumulator (a store write at the
accumulator's reference), and return the new store and the accumulator
references. -/
def kmeans_round_ref (objects : List Cluster) (temp starting : List ℕ)
    (k : ℕ) : Option (List Cluster × List ℕ) := do
  let base := objects.length
  let objects1 := objects ++ List.replicate k empty_accumulator
  let c_list := (List.range k).map (base + ·)
  let objects2 ← temp.foldlM (fun (obs : List Cluster) r => do
    let mi ← min_center_index_ref obs starting k r
    match pyIdx c_list.length mi with
    | none => none
    | some p =>
        let accRef := c_list.getD p 0
        pure (obs.set accRef
          ((obs.getD accRef default).merge_clusters (obs.getD r default))))
    objects1
  if k ≤ starting.length then pure (objects2, c_list) else none

/-- `kmeans_clustering` on the explicit store: the caller passes the
references its list holds; the function returns the final store together
with the references of the returned list.  The caller's reference list is
a value here because no statement of the source writes to the input list
object (`cluster_list_temp = list(cluster_list)` copies it). -/
def kmeans_clustering_ref (objects : List Cluster) (input_refs : List ℕ)
    (k iters : ℕ) : Option (List Cluster × List ℕ) := do
  let temp := pySort
    (fun r => -((objects.getD r default).total_population)) input_refs
  let starting := temp.take k
  (List.range iters).foldlM
    (fun (st : List Cluster × List ℕ) _ =>
      kmeans_round_ref st.1 temp st.2 k) (objects, starting)

/-! ### Correctness machinery for `slow_closest_pair` -/

theorem Cluster.distSq_comm (a b : Cluster) : a.distSq b = b.distSq a := by
  unfold Cluster.distSq
  ring

/-- Shorthand: the squared center distance of the clusters at two indices
as a `WithTop ℚ` (the type of the algorithms' distance slot). -/
def pdW (l : List Cluster) (i j : ℕ) : WithTop ℚ :=
  (((l.getD i default).distSq (l.getD j default) : ℚ) : WithTop ℚ)

theorem pdW_comm (l : List Cluster) (i j : ℕ) : pdW l i j = pdW l j i := by
  unfold pdW
  rw [Cluster.distSq_comm]

theorem pdW_lt_top (l : List Cluster) (i j : ℕ) : pdW l i j < ⊤ :=
  WithTop.coe_lt_top _

/-- The minimum squared center distance over all pairs of distinct
indices — the specification-side notion of closest-pair distance
(`⊤` on lists with fewer than two clusters). -/
def min_pair_distSq (l : List Cluster) : WithTop ℚ :=
  ((Finset.range l.length ×ˢ Finset.range l.length).filter
    (fun p => p.1 ≠ p.2)).inf (fun p => pdW l p.1 p.2)

theorem min_pair_distSq_le {l : List Cluster} {i j : ℕ}
    (hi : i < l.length) (hj : j < l.length) (hij : i ≠ j) :
    min_pair_distSq l ≤ pdW l i j := by
  unfold min_pair_distSq
  have hmem : (i, j) ∈ (Finset.range l.length ×ˢ Finset.range l.length).filter
      (fun p => p.1 ≠ p.2) := by
    simp [Finset.mem_filter, Finset.mem_product, hi, hj, hij]
  exact Finset.inf_le hmem

theorem le_min_pair_distSq {l : List Cluster} {B : WithTop ℚ}
    (h : ∀ i j, i < l.length → j < l.length → i ≠ j → B ≤ pdW l i j) :
    B ≤ min_pair_distSq l := by
  unfold min_pair_distSq
  apply Finset.le_inf
  intro p hp
  simp only [Finset.mem_filter, Finset.mem_product, Finset.mem_range] at hp
  exact h p.1 p.2 hp.1.1 hp.1.2 hp.2

theorem min_pair_distSq_cases (l : List Cluster) :
    min_pair_distSq l = ⊤ ∨ ∃ i j, i < l.length ∧ j < l.length ∧ i ≠ j ∧
      min_pair_distSq l = pdW l i j := by
  by_cases h : ((Finset.range l.length ×ˢ Finset.range l.length).filter
      (fun p => p.1 ≠ p.2)).Nonempty
  · obtain ⟨p, hp, he⟩ := Finset.exists_mem_eq_inf _ h (fun p => pdW l p.1 p.2)
    right
    simp only [Finset.mem_filter, Finset.mem_product, Finset.mem_range] at hp
    exact ⟨p.1, p.2, hp.1.1, hp.1.2, hp.2, he⟩
  · left
    unfold min_pair_distSq
    rw [Finset.not_nonempty_iff_eq_empty.1 h]
    rfl

theorem slow_update_def (l : List Cluster) (i j : ℕ) (acc : CPTriple) :
    slow_update l i j acc =
      if i ≠ j then
        (if pdW l i j < acc.1 then (pdW l i j, (i : ℤ), (j : ℤ)) else acc)
      else acc := rfl

theorem slow_update_fst_le (l : List Cluster) (i j : ℕ) (acc : CPTriple) :
    (slow_update l i j acc).1 ≤ acc.1 := by
  rw [slow_update_def]
  split
  · split
    · exact le_of_lt (by assumption)
    · exact le_refl _
  · exact le_refl _

theorem foldl_slow_fst_le (l : List Cluster) (i : ℕ) (js : List ℕ)
    (acc : CPTriple) :
    ((js.foldl (fun a j => slow_update l i j a) acc)).1 ≤ acc.1 := by
  induction js generalizing acc with
  | nil => exact le_refl _
  | cons j rest ih =>
      exact le_trans (ih (slow_update l i j acc)) (slow_update_fst_le l i j acc)

theorem foldl_slow_le_pd (l : List Cluster) (i : ℕ) (js : List ℕ)
    (acc : CPTriple) {j : ℕ} (hj : j ∈ js) (hij : i ≠ j) :
    ((js.foldl (fun a j2 => slow_update l i j2 a) acc)).1 ≤ pdW l i j := by
  induction js generalizing acc with
  | nil => cases hj
  | cons j2 rest ih =>
      simp only [List.foldl_cons]
      rcases List.mem_cons.1 hj with h | h
      · subst h
        refine le_trans (foldl_slow_fst_le l i rest _) ?_
        rw [slow_update_def]
        simp only [hij, if_true, ne_eq, not_false_eq_true]
        split
        · exact le_refl _
        · exact le_of_not_lt (by assumption)
      · exact ih (slow_update l i j2 acc) h

/-- The inner scan, started from an accumulator already no worse than
every pair `(i, j)` with `j < i` on its list, either keeps the
accumulator or ends at an examined pair with `i < j`. -/
theorem foldl_slow_strong (l : List Cluster) (i : ℕ) (js : List ℕ)
    (acc : CPTriple)
    (hstart : ∀ j ∈ js, j < i → acc.1 ≤ pdW l i j) :
    (js.foldl (fun a j => slow_update l i j a) acc) = acc ∨
      ∃ j ∈ js, i < j ∧
        (js.foldl (fun a j2 => slow_update l i j2 a) acc) =
          (pdW l i j, (i : ℤ), (j : ℤ)) := by
  induction js generalizing acc with
  | nil => exact Or.inl rfl
  | cons j rest ih =>
      simp only [List.foldl_cons]
      by_cases hij : i = j
      · have hstep : slow_update l i j acc = acc := by
          rw [slow_update_def]
          simp [hij]
        rw [hstep]
        rcases ih acc (fun j2 h2 hlt => hstart j2 (List.mem_cons_of_mem _ h2) hlt)
          with h | ⟨j2, hj2, hlt, he⟩
        · exact Or.inl h
        · exact Or.inr ⟨j2, List.mem_cons_of_mem _ hj2, hlt, he⟩
      · by_cases himp : pdW l i j < acc.1
        · have hnot : ¬ j < i := fun hlt =>
            absurd himp (not_lt.2 (hstart j (List.mem_cons_self _ _) hlt))
          have hij2 : i < j := by omega
          have hstep : slow_update l i j acc = (pdW l i j, (i : ℤ), (j : ℤ)) := by
            rw [slow_update_def]
            simp [hij, himp]
          rw [hstep]
          rcases ih (pdW l i j, (i : ℤ), (j : ℤ)) (fun j2 h2 hlt =>
            le_trans (le_of_lt himp) (hstart j2 (List.mem_cons_of_mem _ h2) hlt))
            with h | ⟨j2, hj2, hlt, he⟩
          · exact Or.inr ⟨j, List.mem_cons_self _ _, hij2, h⟩
          · exact Or.inr ⟨j2, List.mem_cons_of_mem _ hj2, hlt, he⟩
        · have hstep : slow_update l i j acc = acc := by
            rw [slow_update_def]
            simp [hij, himp]
          rw [hstep]
          rcases ih acc (fun j2 h2 hlt => hstart j2 (List.mem_cons_of_mem _ h2) hlt)
            with h | ⟨j2, hj2, hlt, he⟩
          · exact Or.inl h
          · exact Or.inr ⟨j2, List.mem_cons_of_mem _ hj2, hlt, he⟩

/-- Validity-plus-minimality form of a closest-pair accumulator. -/
def ValidAcc (l : List Cluster) (acc : CPTriple) : Prop :=
  acc = (⊤, -1, -1) ∨ ∃ i j, i < l.length ∧ j < l.length ∧ i < j ∧
    acc = (pdW l i j, (i : ℤ), (j : ℤ))

theorem slow_outer_invariant (l : List Cluster) :
    ∀ (cnt k : ℕ) (acc : CPTriple), k + cnt = l.length →
    (∀ i j, i < k → j < l.length → i ≠ j → acc.1 ≤ pdW l i j) →
    ValidAcc l acc →
    (∀ i j, i < l.length → j < l.length → i ≠ j →
      ((List.range' k cnt).foldl (fun a i =>
        (List.range l.length).foldl (fun a2 j => slow_update l i j a2) a)
        acc).1 ≤ pdW l i j) ∧
    ValidAcc l ((List.range' k cnt).foldl (fun a i =>
        (List.range l.length).foldl (fun a2 j => slow_update l i j a2) a) acc) := by
  intro cnt
  induction cnt with
  | zero =>
      intro k acc hk hA hB
      simp only [List.range', List.foldl_nil]
      constructor
      · intro i j hi hj hij
        exact hA i j (by omega) hj hij
      · exact hB
  | succ cnt ih =>
      intro k acc hk hA hB
      rw [List.range'_succ]
      simp only [List.foldl_cons]
      set acc1 := (List.range l.length).foldl
        (fun a2 j => slow_update l k j a2) acc with hacc1
      have hmono : acc1.1 ≤ acc.1 := foldl_slow_fst_le l k _ acc
      have hA1 : ∀ i j, i < k + 1 → j < l.length → i ≠ j →
          acc1.1 ≤ pdW l i j := by
        intro i j hi hj hij
        by_cases hik : i < k
        · exact le_trans hmono (hA i j hik hj hij)
        · have hik2 : i = k := by omega
          subst hik2
          exact foldl_slow_le_pd l i (List.range l.length) acc
            (List.mem_range.2 hj) hij
      have hB1 : ValidAcc l acc1 := by
        have hstart : ∀ j ∈ List.range l.length, j < k →
            acc.1 ≤ pdW l k j := by
          intro j hjm hjk
          rw [pdW_comm]
          exact hA j k hjk (by omega) (by omega)
        rcases foldl_slow_strong l k (List.range l.length) acc hstart with
          h | ⟨j, hjm, hkj, he⟩
        · rw [← hacc1] at h
          rw [h]
          exact hB
        · rw [← hacc1] at he
          rw [he]
          exact Or.inr ⟨k, j, by omega, List.mem_range.1 hjm, hkj, rfl⟩
      exact ih (k + 1) acc1 (by omega) hA1 hB1

theorem slow_le_all (l : List Cluster) :
    ∀ i j, i < l.length → j < l.length → i ≠ j →
      (slow_closest_pair l).1 ≤ pdW l i j := by
  have h := slow_outer_invariant l l.length 0 (⊤, -1, -1) (by omega)
    (by intro i j hi; omega) (Or.inl rfl)
  intro i j hi hj hij
  have h2 := h.1 i j hi hj hij
  rw [← List.range_eq_range'] at h2
  exact h2

theorem slow_validAcc (l : List Cluster) :
    ValidAcc l (slow_closest_pair l) := by
  have h := slow_outer_invariant l l.length 0 (⊤, -1, -1) (by omega)
    (by intro i j hi; omega) (Or.inl rfl)
  have h2 := h.2
  rw [← List.range_eq_range'] at h2
  exact h2

/-- The distance slot of `slow_closest_pair` is exactly the minimum
pairwise squared center distance. -/
theorem slow_fst_eq (l : List Cluster) :
    (slow_closest_pair l).1 = min_pair_distSq l := by
  apply le_antisymm
  · exact le_min_pair_distSq (slow_le_all l)
  · rcases slow_validAcc l with h | ⟨i, j, hi, hj, hij, he⟩
    · rw [h]
      exact le_top
    · rw [he]
      exact min_pair_distSq_le hi hj (by omega)

/-- On a list with at least two clusters, `slow_closest_pair` returns an
actual pair: valid indices in increasing order whose squared distance is
the reported one. -/
theorem slow_valid_pair {l : List Cluster} (h2 : 2 ≤ l.length) :
    ∃ i j, i < l.length ∧ j < l.length ∧ i < j ∧
      slow_closest_pair l = (pdW l i j, (i : ℤ), (j : ℤ)) := by
  rcases slow_validAcc l with h | ⟨i, j, hi, hj, hij, he⟩
  · exfalso
    have hle := slow_le_all l 0 1 (by omega) (by omega) (by omega)
    rw [h] at hle
    exact absurd (lt_of_le_of_lt hle (pdW_lt_top l 0 1)) (lt_irrefl ⊤)
  · exact ⟨i, j, hi, hj, hij, he⟩

/-! ### Correctness machinery for `closest_pair_strip` -/

theorem pyRange_mem {a b x : ℕ} : x ∈ pyRange a b ↔ a ≤ x ∧ x < b := by
  unfold pyRange
  simp only [List.mem_map, List.mem_range]
  constructor
  · rintro ⟨y, hy, rfl⟩
    omega
  · rintro ⟨h1, h2⟩
    exact ⟨x - a, by omega, by omega⟩

theorem strip_update_def (s l : List Cluster) (i j : ℕ) (acc : CPTriple) :
    strip_update s l i j acc =
      if i ≠ j then
        (if pdW s i j < acc.1 then
          (pdW s i j, (l.indexOf (s.getD i default) : ℤ),
            (l.indexOf (s.getD j default) : ℤ))
         else acc)
      else acc := rfl

theorem strip_update_fst_le (s l : List Cluster) (i j : ℕ) (acc : CPTriple) :
    (strip_update s l i j acc).1 ≤ acc.1 := by
  rw [strip_update_def]
  split
  · split
    · exact le_of_lt (by assumption)
    · exact le_refl _
  · exact le_refl _

theorem strip_swap_fst (acc : CPTriple) : (strip_swap acc).1 = acc.1 := by
  unfold strip_swap
  split <;> rfl

theorem strip_swap_ordered (acc : CPTriple) :
    (strip_swap acc).2.1 ≤ (strip_swap acc).2.2 := by
  unfold strip_swap
  split
  · exact le_of_lt (by assumption)
  · exact le_of_not_lt (by assumption)

theorem foldl_strip_fst_le (s l : List Cluster) (js : List ℕ) (i : ℕ)
    (acc : CPTriple) :
    ((js.foldl (fun a j => strip_update s l i j a) acc)).1 ≤ acc.1 := by
  induction js generalizing acc with
  | nil => exact le_refl _
  | cons j rest ih =>
      exact le_trans (ih (strip_update s l i j acc))
        (strip_update_fst_le s l i j acc)

theorem foldl_strip_le_pd (s l : List Cluster) (js : List ℕ) (i : ℕ)
    (acc : CPTriple) {j : ℕ} (hj : j ∈ js) (hij : i ≠ j) :
    ((js.foldl (fun a j2 => strip_update s l i j2 a) acc)).1 ≤ pdW s i j := by
  induction js generalizing acc with
  | nil => cases hj
  | cons j2 rest ih =>
      simp only [List.foldl_cons]
      rcases List.mem_cons.1 hj with h | h
      · subst h
        refine le_trans (foldl_strip_fst_le s l rest i _) ?_
        rw [strip_update_def]
        simp only [hij, if_true, ne_eq, not_false_eq_true]
        split
        · exact le_refl _
        · exact le_of_not_lt (by assumption)
      · exact ih (strip_update s l i j2 acc) h

/-- Generic: a fold whose step never increases the distance slot. -/
theorem foldl_fst_le_acc {α : Type} (g : CPTriple → α → CPTriple)
    (hmono : ∀ a x, (g a x).1 ≤ a.1) (is : List α) (acc : CPTriple) :
    (is.foldl g acc).1 ≤ acc.1 := by
  induction is generalizing acc with
  | nil => exact le_refl _
  | cons x rest ih => exact le_trans (ih (g acc x)) (hmono acc x)

/-- Generic: if some processed element forces the distance slot below a
bound, the fold's final distance slot is below that bound. -/
theorem foldl_le_of_mem {α : Type} (g : CPTriple → α → CPTriple)
    (hmono : ∀ a x, (g a x).1 ≤ a.1) (B : WithTop ℚ) (u : α)
    (hu : ∀ a, (g a u).1 ≤ B) (is : List α) (hmem : u ∈ is)
    (acc : CPTriple) : (is.foldl g acc).1 ≤ B := by
  induction is generalizing acc with
  | nil => cases hmem
  | cons x rest ih =>
      simp only [List.foldl_cons]
      rcases List.mem_cons.1 hmem with h | h
      · subst h
        exact le_trans (foldl_fst_le_acc g hmono rest (g acc u)) (hu acc)
      · exact ih h (g acc x)

/-- Any pair of strip positions within the inner-loop window bounds the
strip result's distance slot. -/
theorem closest_pair_strip_le (l : List Cluster) (mid : ℚ)
    (hwSq : WithTop ℚ) {u v : ℕ}
    (huv : u < v) (hv : v ≤ min (u + 3) ((strip_list l mid hwSq).length - 1)) :
    (closest_pair_strip l mid hwSq).1 ≤ pdW (strip_list l mid hwSq) u v := by
  set s := strip_list l mid hwSq with hs
  unfold closest_pair_strip
  rw [← hs]
  apply foldl_le_of_mem
  · intro a x
    rw [strip_swap_fst]
    exact foldl_strip_fst_le s l _ x a
  · intro a
    rw [strip_swap_fst]
    exact foldl_strip_le_pd s l _ u a
      (pyRange_mem.2 (by omega)) (by omega)
  · exact List.mem_range.2 (by omega)

/-- Validity form for the strip scan: the sentinel, or a genuine pair of
distinct strip positions with the stored indices being `list.index`
positions of the two strip clusters in the original list. -/
def StripValid (s l : List Cluster) (acc : CPTriple) : Prop :=
  acc = (⊤, -1, -1) ∨ ∃ i j, i < s.length ∧ j < s.length ∧ i ≠ j ∧
    acc = (pdW s i j, (l.indexOf (s.getD i default) : ℤ),
      (l.indexOf (s.getD j default) : ℤ))

theorem strip_update_valid (s l : List Cluster) (i j : ℕ)
    (hi : i < s.length) (hj : j < s.length) (acc : CPTriple)
    (h : StripValid s l acc) : StripValid s l (strip_update s l i j acc) := by
  rw [strip_update_def]
  split
  · split
    · exact Or.inr ⟨i, j, hi, hj, by assumption, rfl⟩
    · exact h
  · exact h

theorem foldl_strip_valid (s l : List Cluster) (js : List ℕ) (i : ℕ)
    (hi : i < s.length) (hjs : ∀ j ∈ js, j < s.length) (acc : CPTriple)
    (h : StripValid s l acc) :
    StripValid s l (js.foldl (fun a j => strip_update s l i j a) acc) := by
  induction js generalizing acc with
  | nil => exact h
  | cons j rest ih =>
      simp only [List.foldl_cons]
      exact ih (fun j2 h2 => hjs j2 (List.mem_cons_of_mem _ h2)) _
        (strip_update_valid s l i j hi (hjs j (List.mem_cons_self _ _)) acc h)

theorem strip_swap_valid (s l : List Cluster) (acc : CPTriple)
    (h : StripValid s l acc) : StripValid s l (strip_swap acc) := by
  rcases h with h | ⟨i, j, hi, hj, hij, he⟩
  · subst h
    exact Or.inl rfl
  · subst he
    unfold strip_swap
    split
    · exact Or.inr ⟨j, i, hj, hi, fun hc => hij hc.symm, by
        rw [pdW_comm]⟩
    · exact Or.inr ⟨i, j, hi, hj, hij, rfl⟩

theorem closest_pair_strip_valid (l : List Cluster) (mid : ℚ)
    (hwSq : WithTop ℚ) :
    StripValid (strip_list l mid hwSq) l (closest_pair_strip l mid hwSq) := by
  set s := strip_list l mid hwSq with hs
  unfold closest_pair_strip
  rw [← hs]
  have hstep : ∀ (acc : CPTriple) (i : ℕ), i ∈ List.range (s.length - 1) →
      StripValid s l acc →
      StripValid s l (strip_swap
        ((pyRange (i + 1) (min (i + 3) (s.length - 1) + 1)).foldl
          (fun a j => strip_update s l i j a) acc)) := by
    intro acc i hi hacc
    have hi2 : i < s.length - 1 := List.mem_range.1 hi
    apply strip_swap_valid
    apply foldl_strip_valid
    · omega
    · intro j hj
      have := pyRange_mem.1 hj
      omega
    · exact hacc
  have hgen : ∀ (is : List ℕ) (acc : CPTriple),
      (∀ i ∈ is, i ∈ List.range (s.length - 1)) → StripValid s l acc →
      StripValid s l (is.foldl (fun a i =>
        strip_swap ((pyRange (i + 1) (min (i + 3) (s.length - 1) + 1)).foldl
          (fun a2 j => strip_update s l i j a2) a)) acc) := by
    intro is
    induction is with
    | nil => intro acc _ h; exact h
    | cons i rest ih =>
        intro acc hmem h
        simp only [List.foldl_cons]
        exact ih _ (fun i2 h2 => hmem i2 (List.mem_cons_of_mem _ h2))
          (hstep acc i (hmem i (List.mem_cons_self _ _)) h)
  exact hgen _ _ (fun i h => h) (Or.inl rfl)

theorem closest_pair_strip_ordered (l : List Cluster) (mid : ℚ)
    (hwSq : WithTop ℚ) :
    closest_pair_strip l mid hwSq = (⊤, -1, -1) ∨
      (closest_pair_strip l mid hwSq).2.1 ≤
        (closest_pair_strip l mid hwSq).2.2 := by
  simp only [closest_pair_strip]
  rcases List.eq_nil_or_concat
    (List.range ((strip_list l mid hwSq).length - 1)) with h | ⟨is, last, h⟩
  · rw [h]
    exact Or.inl rfl
  · rw [h, List.concat_eq_append, List.foldl_append]
    simp only [List.foldl_cons, List.foldl_nil]
    exact Or.inr (strip_swap_ordered _)

/-! ### Facts about the strip list and `fast_closest_pair` validity -/

theorem strip_list_mem {l : List Cluster} {mid : ℚ} {hwSq : WithTop ℚ}
    {c : Cluster} :
    c ∈ strip_list l mid hwSq ↔
      c ∈ l ∧ (((c.horiz_center - mid)^2 : ℚ) : WithTop ℚ) ≤ hwSq := by
  unfold strip_list
  rw [pySort_mem, List.mem_filter]
  simp only [decide_eq_true_eq]

theorem strip_list_nodup {l : List Cluster} {mid : ℚ} {hwSq : WithTop ℚ}
    (h : l.Nodup) : (strip_list l mid hwSq).Nodup :=
  pySort_nodup _ (h.filter _)

theorem strip_list_sorted (l : List Cluster) (mid : ℚ) (hwSq : WithTop ℚ) :
    (strip_list l mid hwSq).Pairwise
      (fun a b => a.vert_center ≤ b.vert_center) :=
  pySort_sorted _ _

theorem getD_take {l : List Cluster} {m i : ℕ} (h : i < m) :
    (l.take m).getD i default = l.getD i default := by
  by_cases h2 : i < l.length
  · have h3 : i < (l.take m).length := by
      rw [List.length_take]
      omega
    rw [List.getD_eq_getElem _ _ h3, List.getD_eq_getElem _ _ h2]
    exact List.getElem_take l
  · rw [List.getD_eq_default, List.getD_eq_default]
    · omega
    · rw [List.length_take]
      omega

theorem getD_drop {l : List Cluster} {m i : ℕ} (h : m + i < l.length) :
    (l.drop m).getD i default = l.getD (m + i) default := by
  have h3 : i < (l.drop m).length := by
    rw [List.length_drop]
    omega
  rw [List.getD_eq_getElem _ _ h3, List.getD_eq_getElem _ _ h]
  exact List.getElem_drop l

theorem pdW_take {l : List Cluster} {m i j : ℕ} (hi : i < m) (hj : j < m) :
    pdW (l.take m) i j = pdW l i j := by
  unfold pdW
  rw [getD_take hi, getD_take hj]

theorem pdW_drop {l : List Cluster} {m i j : ℕ} (hi : m + i < l.length)
    (hj : m + j < l.length) :
    pdW (l.drop m) i j = pdW l (m + i) (m + j) := by
  unfold pdW
  rw [getD_drop hi, getD_drop hj]

theorem nodup_getD_ne {s : List Cluster} (h : s.Nodup) {i j : ℕ}
    (hi : i < s.length) (hj : j < s.length) (hij : i ≠ j) :
    s.getD i default ≠ s.getD j default := by
  rw [List.getD_eq_getElem _ _ hi, List.getD_eq_getElem _ _ hj]
  intro he
  exact hij ((h.getElem_inj_iff).1 he)

theorem getD_indexOf {l : List Cluster} {c : Cluster} (h : c ∈ l) :
    l.getD (l.indexOf c) default = c := by
  have h2 : l.indexOf c < l.length := List.indexOf_lt_length.2 h
  rw [List.getD_eq_getElem _ _ h2]
  exact List.getElem_indexOf h2

/-- On a nodup list of at least two clusters, `fast_closest_pair` always
reports a genuine pair: indices of the list in increasing order together
with their squared center distance. -/
theorem fast_valid_pair :
    ∀ (n : ℕ) (l : List Cluster), l.length = n → l.Nodup → 2 ≤ l.length →
    ∃ i j, i < l.length ∧ j < l.length ∧ i < j ∧
      (fast_closest_pair l).1 = pdW l i j ∧
      (fast_closest_pair l).2.1 = (i : ℤ) ∧
      (fast_closest_pair l).2.2 = (j : ℤ) := by
  intro n
  induction n using Nat.strong_induction_on with
  | _ n ih =>
    intro l hlen hnd h2
    by_cases h3 : l.length ≤ 3
    · rw [fast_closest_pair]
      simp only [h3, if_true]
      obtain ⟨i, j, hi, hj, hij, he⟩ := slow_valid_pair h2
      exact ⟨i, j, hi, hj, hij, by rw [he], by rw [he], by rw [he]⟩
    · rw [fast_closest_pair]
      simp only [h3, if_false]
      have h4 : 4 ≤ l.length := by omega
      set m := l.length / 2 with hm
      have hm2 : 2 ≤ m := by omega
      have hmn : m + 2 ≤ l.length := by omega
      have htl : (l.take m).length = m := by
        rw [List.length_take]
        omega
      have hdl : (l.drop m).length = l.length - m := by
        rw [List.length_drop]
      obtain ⟨i1, j1, hi1, hj1, hij1, hd1, ha1, hb1⟩ :=
        ih m (by omega) (l.take m) htl (hnd.sublist (List.take_sublist m l))
          (by omega)
      obtain ⟨i2, j2, hi2, hj2, hij2, hd2, ha2, hb2⟩ :=
        ih (l.length - m) (by omega) (l.drop m) hdl
          (hnd.sublist (List.drop_sublist m l)) (by omega)
      rw [htl] at hi1 hj1
      rw [hdl] at hi2 hj2
      set dl := fast_closest_pair (l.take m) with hdl2
      set dr := fast_closest_pair (l.drop m) with hdr2
      set dt : CPTriple := if dl.1 ≤ dr.1 then dl
        else (dr.1, dr.2.1 + (m : ℤ), dr.2.2 + (m : ℤ)) with hdt
      have hdtv : ∃ i j, i < l.length ∧ j < l.length ∧ i < j ∧
          dt.1 = pdW l i j ∧ dt.2.1 = (i : ℤ) ∧ dt.2.2 = (j : ℤ) := by
        rw [hdt]
        split
        · refine ⟨i1, j1, by omega, by omega, hij1, ?_, ha1, hb1⟩
          rw [hd1, pdW_take hi1 hj1]
        · refine ⟨m + i2, m + j2, by omega, by omega, by omega, ?_, ?_, ?_⟩
          · rw [hd2, pdW_drop (by omega) (by omega)]
          · rw [ha2]
            push_cast
            ring
          · rw [hb2]
            push_cast
            ring
      set mid := (1 / 2 : ℚ) * ((l.getD (m - 1) default).horiz_center +
        (l.getD m default).horiz_center) with hmid
      set ds := closest_pair_strip l mid dt.1 with hds
      obtain ⟨iT, jT, hiT, hjT, hijT, hdT, haT, hbT⟩ := hdtv
      split
      · exact ⟨iT, jT, hiT, hjT, hijT, hdT, haT, hbT⟩
      · rename_i hlt
        rcases closest_pair_strip_valid l mid dt.1 with hinit | hpair
        · exfalso
          rw [← hds] at hinit
          rw [hinit] at hlt
          exact hlt le_top
        · obtain ⟨iS, jS, hiS, hjS, hijS, heS⟩ := hpair
          rw [← hds] at heS
          set s := strip_list l mid dt.1 with hsdef
          have hsnd : s.Nodup := strip_list_nodup hnd
          have haMem : s.getD iS default ∈ s := by
            rw [List.getD_eq_getElem _ _ hiS]
            exact List.getElem_mem _
          have hbMem : s.getD jS default ∈ s := by
            rw [List.getD_eq_getElem _ _ hjS]
            exact List.getElem_mem _
          have haL : s.getD iS default ∈ l := (strip_list_mem.1 haMem).1
          have hbL : s.getD jS default ∈ l := (strip_list_mem.1 hbMem).1
          have hne : s.getD iS default ≠ s.getD jS default :=
            nodup_getD_ne hsnd hiS hjS hijS
          set iA := l.indexOf (s.getD iS default) with hiA
          set iB := l.indexOf (s.getD jS default) with hiB
          have hiAlt : iA < l.length := List.indexOf_lt_length.2 haL
          have hiBlt : iB < l.length := List.indexOf_lt_length.2 hbL
          have hABne : iA ≠ iB := by
            intro hc
            exact hne ((List.indexOf_inj haL hbL).1 hc)
          have hpd : pdW l iA iB = pdW s iS jS := by
            unfold pdW
            rw [hiA, hiB, getD_indexOf haL, getD_indexOf hbL]
          have hord : ds.2.1 ≤ ds.2.2 := by
            rcases closest_pair_strip_ordered l mid dt.1 with hi0 | hi0
            · exfalso
              rw [← hds] at hi0
              rw [hi0] at hlt
              exact hlt le_top
            · rw [← hds] at hi0
              exact hi0
          rw [heS] at hord
          simp only at hord
          have hABlt : iA < iB := by
            have : (iA : ℤ) ≤ (iB : ℤ) := hord
            omega
          refine ⟨iA, iB, hiAlt, hiBlt, hABlt, ?_, ?_, ?_⟩
          · rw [heS]
            exact hpd.symm
          · rw [heS]
          · rw [heS]

/-! ### Claims C7 and C9 -/

/-- C7: for every list of at least two clusters, `slow_closest_pair`
returns a triple `(distance, lower, upper)` with `lower < upper`, both
valid indices, and the distance slot equal to the (squared, see module
docstring) center distance of the clusters at those indices; under the
fast algorithm's documented precondition (sorted by horizontal center;
value-distinctness reflecting Python object identity), the same holds
for `fast_closest_pair`. -/
theorem claim_C7_closest_pair_returns_ordered_pair (l : List Cluster)
    (h2 : 2 ≤ l.length) :
    (∃ i j, i < l.length ∧ j < l.length ∧ i < j ∧
      slow_closest_pair l =
        ((((l.getD i default).distSq (l.getD j default) : ℚ) : WithTop ℚ),
          (i : ℤ), (j : ℤ))) ∧
    (l.Pairwise (fun a b => a.horiz_center ≤ b.horiz_center) → l.Nodup →
      ∃ i j, i < l.length ∧ j < l.length ∧ i < j ∧
        (fast_closest_pair l).1 =
          (((l.getD i default).distSq (l.getD j default) : ℚ) : WithTop ℚ) ∧
        (fast_closest_pair l).2.1 = (i : ℤ) ∧
        (fast_closest_pair l).2.2 = (j : ℤ)) := by
  constructor
  · obtain ⟨i, j, hi, hj, hij, he⟩ := slow_valid_pair h2
    exact ⟨i, j, hi, hj, hij, he⟩
  · intro _ hnd
    exact fast_valid_pair l.length l rfl hnd h2

theorem claim_C7_witness :
    ∃ i j, i < 2 ∧ j < 2 ∧ i < j ∧
      (fast_closest_pair [(⟨{0}, 0, 0, 1, 0⟩ : Cluster), ⟨{1}, 1, 0, 1, 0⟩]).1 =
        ((((([(⟨{0}, 0, 0, 1, 0⟩ : Cluster), ⟨{1}, 1, 0, 1, 0⟩]).getD i
          default).distSq
          (([(⟨{0}, 0, 0, 1, 0⟩ : Cluster), ⟨{1}, 1, 0, 1, 0⟩]).getD j
          default) : ℚ) : WithTop ℚ)) ∧
      (fast_closest_pair [(⟨{0}, 0, 0, 1, 0⟩ : Cluster), ⟨{1}, 1, 0, 1, 0⟩]).2.1
        = (i : ℤ) ∧
      (fast_closest_pair [(⟨{0}, 0, 0, 1, 0⟩ : Cluster), ⟨{1}, 1, 0, 1, 0⟩]).2.2
        = (j : ℤ) :=
  (claim_C7_closest_pair_returns_ordered_pair
    [⟨{0}, 0, 0, 1, 0⟩, ⟨{1}, 1, 0, 1, 0⟩] (by decide)).2
    (by decide) (by decide)

/-- C9: on a list with fewer than two clusters both algorithms return
the sentinel `(inf, -1, -1)` (they are total functions — no error), and
`fast_closest_pair` delegates to `slow_closest_pair` whenever the list
has at most three clusters. -/
theorem claim_C9_degenerate_inputs_sentinel :
    (∀ l : List Cluster, l.length < 2 →
      slow_closest_pair l = (⊤, -1, -1) ∧
      fast_closest_pair l = (⊤, -1, -1)) ∧
    (∀ l : List Cluster, l.length ≤ 3 →
      fast_closest_pair l = slow_closest_pair l) := by
  have hdeleg : ∀ l : List Cluster, l.length ≤ 3 →
      fast_closest_pair l = slow_closest_pair l := by
    intro l h
    rw [fast_closest_pair]
    simp [h]
  refine ⟨?_, hdeleg⟩
  intro l h
  have hslow : slow_closest_pair l = (⊤, -1, -1) := by
    rcases l with _ | ⟨a, _ | ⟨b, t⟩⟩
    · rfl
    · rfl
    · exfalso
      simp only [List.length_cons] at h
      omega
  exact ⟨hslow, by rw [hdeleg l (by omega)]; exact hslow⟩

theorem claim_C9_witness :
    slow_closest_pair [(⟨{0}, 0, 0, 1, 0⟩ : Cluster)] = (⊤, -1, -1) ∧
    fast_closest_pair [(⟨{0}, 0, 0, 1, 0⟩ : Cluster)] = (⊤, -1, -1) ∧
    fast_closest_pair [] = slow_closest_pair [] :=
  ⟨(claim_C9_degenerate_inputs_sentinel.1 [⟨{0}, 0, 0, 1, 0⟩] (by decide)).1,
   (claim_C9_degenerate_inputs_sentinel.1 [⟨{0}, 0, 0, 1, 0⟩] (by decide)).2,
   claim_C9_degenerate_inputs_sentinel.2 [] (by decide)⟩

/-! ### Index-range facts (no distinctness assumptions) -/

theorem pyIdx_coe {n i : ℕ} (h : i < n) : pyIdx n (i : ℤ) = some i := by
  unfold pyIdx
  rw [if_pos]
  · simp
  · constructor
    · exact Int.ofNat_nonneg i
    · exact_mod_cast h

theorem pyIdx_zero_len (i : ℤ) : pyIdx 0 i = none := by
  unfold pyIdx
  split
  · omega
  · split
    · omega
    · rfl

theorem slow_range {l : List Cluster} (h2 : 2 ≤ l.length) :
    (slow_closest_pair l).1 < ⊤ ∧ ∃ i j : ℕ, i < l.length ∧ j < l.length ∧
      (slow_closest_pair l).2.1 = (i : ℤ) ∧
      (slow_closest_pair l).2.2 = (j : ℤ) := by
  obtain ⟨i, j, hi, hj, _, he⟩ := slow_valid_pair h2
  rw [he]
  exact ⟨pdW_lt_top l i j, i, j, hi, hj, rfl, rfl⟩

theorem fast_range :
    ∀ (n : ℕ) (l : List Cluster), l.length = n → 2 ≤ l.length →
    (fast_closest_pair l).1 < ⊤ ∧ ∃ i j : ℕ, i < l.length ∧ j < l.length ∧
      (fast_closest_pair l).2.1 = (i : ℤ) ∧
      (fast_closest_pair l).2.2 = (j : ℤ) := by
  intro n
  induction n using Nat.strong_induction_on with
  | _ n ih =>
    intro l hlen h2
    by_cases h3 : l.length ≤ 3
    · rw [fast_closest_pair]
      simp only [h3, if_true]
      exact slow_range h2
    · rw [fast_closest_pair]
      simp only [h3, if_false]
      have h4 : 4 ≤ l.length := by omega
      set m := l.length / 2 with hm
      have htl : (l.take m).length = m := by
        rw [List.length_take]
        omega
      have hdl : (l.drop m).length = l.length - m := by
        rw [List.length_drop]
      obtain ⟨hfin1, i1, j1, hi1, hj1, ha1, hb1⟩ :=
        ih m (by omega) (l.take m) htl (by omega)
      obtain ⟨hfin2, i2, j2, hi2, hj2, ha2, hb2⟩ :=
        ih (l.length - m) (by omega) (l.drop m) hdl (by omega)
      rw [htl] at hi1 hj1
      rw [hdl] at hi2 hj2
      set dl := fast_closest_pair (l.take m) with hdl2
      set dr := fast_closest_pair (l.drop m) with hdr2
      set dt : CPTriple := if dl.1 ≤ dr.1 then dl
        else (dr.1, dr.2.1 + (m : ℤ), dr.2.2 + (m : ℤ)) with hdt
      have hdtv : dt.1 < ⊤ ∧ ∃ i j : ℕ, i < l.length ∧ j < l.length ∧
          dt.2.1 = (i : ℤ) ∧ dt.2.2 = (j : ℤ) := by
        rw [hdt]
        split
        · exact ⟨lt_of_le_of_lt (by assumption) hfin2,
            i1, j1, by omega, by omega, ha1, hb1⟩
        · refine ⟨hfin2, i2 + m, j2 + m, by omega, by omega, ?_, ?_⟩
          · rw [ha2]
            push_cast
            ring
          · rw [hb2]
            push_cast
            ring
      obtain ⟨hfinT, iT, jT, hiT, hjT, haT, hbT⟩ := hdtv
      set mid := (1 / 2 : ℚ) * ((l.getD (m - 1) default).horiz_center +
        (l.getD m default).horiz_center) with hmid
      set ds := closest_pair_strip l mid dt.1 with hds
      split
      · exact ⟨hfinT, iT, jT, hiT, hjT, haT, hbT⟩
      · rename_i hlt
        rcases closest_pair_strip_valid l mid dt.1 with hinit | hpair
        · exfalso
          rw [← hds] at hinit
          rw [hinit] at hlt
          exact hlt le_top
        · obtain ⟨iS, jS, hiS, hjS, _, heS⟩ := hpair
          rw [← hds] at heS
          set s := strip_list l mid dt.1 with hsdef
          have haMem : s.getD iS default ∈ s := by
            rw [List.getD_eq_getElem _ _ hiS]
            exact List.getElem_mem _
          have hbMem : s.getD jS default ∈ s := by
            rw [List.getD_eq_getElem _ _ hjS]
            exact List.getElem_mem _
          have haL : s.getD iS default ∈ l := (strip_list_mem.1 haMem).1
          have hbL : s.getD jS default ∈ l := (strip_list_mem.1 hbMem).1
          refine ⟨?_, l.indexOf (s.getD iS default),
            l.indexOf (s.getD jS default),
            List.indexOf_lt_length.2 haL, List.indexOf_lt_length.2 hbL,
            by rw [heS], by rw [heS]⟩
          rw [heS]
          exact pdW_lt_top s iS jS

theorem merge_step_some {l : List Cluster} {a b : ℤ} {p q : ℕ}
    (hp : pyIdx l.length a = some p) (hq : pyIdx l.length b = some q) :
    merge_step l a b =
      if p = q then some (l.eraseIdx p)
      else some ((if p < q then (l.eraseIdx q).eraseIdx p
        else (l.eraseIdx p).eraseIdx q) ++
        [(l.getD p default).merge_clusters (l.getD q default)]) := by
  unfold merge_step
  rw [hp, hq]

theorem merge_step_fast_some {l : List Cluster} (h1 : 1 ≤ l.length) :
    ∃ l2, merge_step l (fast_closest_pair l).2.1
      (fast_closest_pair l).2.2 = some l2 := by
  by_cases h2 : 2 ≤ l.length
  · obtain ⟨_, i, j, hi, hj, ha, hb⟩ := fast_range l.length l rfl h2
    rw [ha, hb]
    rw [merge_step_some (pyIdx_coe hi) (pyIdx_coe hj)]
    by_cases hpq : i = j
    · rw [if_pos hpq]
      exact ⟨_, rfl⟩
    · rw [if_neg hpq]
      exact ⟨_, rfl⟩
  · have h3 : l.length = 1 := by omega
    have hfe : fast_closest_pair l = (⊤, -1, -1) :=
      (claim_C9_degenerate_inputs_sentinel.1 l (by omega)).2
    rw [hfe]
    have hp : pyIdx l.length (-1 : ℤ) = some 0 := by
      unfold pyIdx
      rw [if_neg (by omega), if_pos (by omega)]
      rw [h3]
      rfl
    rw [merge_step_some hp hp, if_pos rfl]
    exact ⟨_, rfl⟩

theorem hierarch_empty_neg {t : ℤ} (ht : t < 0) :
    hierarch_clustering [] t = none := by
  rw [hierarch_clustering]
  have hcond : ¬ ((([] : List Cluster).length : ℤ) ≤ t) := by
    simp only [List.length_nil, Nat.cast_zero]
    omega
  rw [dif_neg hcond]
  have hs : pySort (fun c => c.horiz_center) ([] : List Cluster) = [] := rfl
  have hf : fast_closest_pair ([] : List Cluster) = (⊤, -1, -1) :=
    (claim_C9_degenerate_inputs_sentinel.1 [] (by simp)).2
  have he : merge_step (pySort (fun c => c.horiz_center) ([] : List Cluster))
      (fast_closest_pair (pySort (fun c => c.horiz_center)
        ([] : List Cluster))).2.1
      (fast_closest_pair (pySort (fun c => c.horiz_center)
        ([] : List Cluster))).2.2 = none := by
    rw [hs, hf]
    rfl
  dsimp only
  split
  · rfl
  · rename_i l3 h3
    rw [he] at h3
    cases h3

theorem hierarch_neg_none :
    ∀ (n : ℕ) (l : List Cluster), l.length = n → ∀ t : ℤ, t < 0 →
      l ≠ [] → hierarch_clustering l t = none := by
  intro n
  induction n using Nat.strong_induction_on with
  | _ n ih =>
    intro l hlen t ht hne
    have h1 : 1 ≤ l.length := List.length_pos.2 hne
    rw [hierarch_clustering]
    rw [dif_neg (by omega : ¬ (l.length : ℤ) ≤ t)]
    have hslen : (pySort (fun c => c.horiz_center) l).length = l.length :=
      pySort_length _ _
    obtain ⟨l2, he⟩ := merge_step_fast_some
      (l := pySort (fun c => c.horiz_center) l) (by omega)
    have hlen2 : l2.length + 1 = l.length := by
      have := merge_step_length he
      omega
    dsimp only
    split
    · rfl
    · rename_i l3 h3
      rw [he] at h3
      cases h3
      by_cases hemp : l2 = []
      · subst hemp
        exact hierarch_empty_neg ht
      · exact ih l2.length (by omega) l2 rfl t ht hemp

theorem hierarch_zero_target :
    ∀ (n : ℕ) (l : List Cluster), l.length = n →
      hierarch_clustering l 0 = some [] := by
  intro n
  induction n using Nat.strong_induction_on with
  | _ n ih =>
    intro l hlen
    by_cases hemp : l = []
    · subst hemp
      rw [hierarch_clustering]
      rw [dif_pos (by simp)]
    · have h1 : 1 ≤ l.length := List.length_pos.2 hemp
      rw [hierarch_clustering]
      rw [dif_neg (by push_cast; omega : ¬ (l.length : ℤ) ≤ 0)]
      have hslen : (pySort (fun c => c.horiz_center) l).length = l.length :=
        pySort_length _ _
      obtain ⟨l2, he⟩ := merge_step_fast_some
        (l := pySort (fun c => c.horiz_center) l) (by omega)
      have hlen2 : l2.length + 1 = l.length := by
        have := merge_step_length he
        omega
      dsimp only
      split
      · rename_i h3
        rw [he] at h3
        cases h3
      · rename_i l3 h3
        rw [he] at h3
        cases h3
        exact ih l2.length (by omega) l2 rfl

/-- C5, counterexample to the claim as stated: called with the
non-positive target 0 on a one-cluster list, `hierarch_clustering` does
not fail — it returns a cluster list (the empty one). -/
theorem claim_C5_counterexample :
    ∃ r : List Cluster,
      hierarch_clustering [(⟨{0}, 0, 0, 1, 0⟩ : Cluster)] 0 = some r :=
  ⟨[], hierarch_zero_target 1 [⟨{0}, 0, 0, 1, 0⟩] rfl⟩

/-- C5 amended: `hierarch_clustering` does not fail fast on non-positive
targets.  With target 0 it silently merges everything away and returns
the empty list; with a negative target on a non-empty list it keeps
merging until the list is empty and only then fails with an
uninformative `IndexError` (modelled by `none`), not a descriptive
precondition error. -/
theorem claim_C5_hierarch_nonpositive_target :
    (∀ l : List Cluster, hierarch_clustering l 0 = some []) ∧
    (∀ (l : List Cluster) (t : ℤ), l ≠ [] → t < 0 →
      hierarch_clustering l t = none) := by
  constructor
  · intro l
    exact hierarch_zero_target l.length l rfl
  · intro l t hne ht
    exact hierarch_neg_none l.length l rfl t ht hne

theorem claim_C5_witness :
    hierarch_clustering [(⟨{1}, 2, 3, 4, 5⟩ : Cluster)] (-1) = none ∧
    hierarch_clustering [(⟨{1}, 2, 3, 4, 5⟩ : Cluster)] 0 = some [] :=
  ⟨claim_C5_hierarch_nonpositive_target.2 [⟨{1}, 2, 3, 4, 5⟩] (-1)
    (by simp) (by omega),
   claim_C5_hierarch_nonpositive_target.1 [⟨{1}, 2, 3, 4, 5⟩]⟩

/-- C3: the code contradicts its own docstring ("Output: List of
clusters whose length is num_clusters") when the requested cluster count
exceeds the number of input clusters: with zero iterations it returns
only the available clusters (here 1 instead of the requested 2), and
with at least one iteration it raises an `IndexError` (modelled `none`)
instead of returning a list at all. -/
theorem claim_C3_kmeans_count_contract_fails :
    kmeans_clustering [(⟨{0}, 0, 0, 1, 0⟩ : Cluster)] 2 0 =
      some [⟨{0}, 0, 0, 1, 0⟩] ∧
    (kmeans_clustering [(⟨{0}, 0, 0, 1, 0⟩ : Cluster)] 2 0).map List.length
      ≠ some 2 ∧
    kmeans_clustering [(⟨{0}, 0, 0, 1, 0⟩ : Cluster)] 2 1 = none := by
  refine ⟨rfl, ?_, rfl⟩
  intro h
  rw [show kmeans_clustering [(⟨{0}, 0, 0, 1, 0⟩ : Cluster)] 2 0 =
    some [⟨{0}, 0, 0, 1, 0⟩] from rfl] at h
  simp at h

/-! ### Pure characterization of the k-means rounds -/

/-- Total version of the nearest-center scan of `kmeans_clustering`
(equal to `min_center_index` whenever the inner loop would not raise). -/
def min_center_index_total (starting : List Cluster) (k : ℕ) (c : Cluster) :
    ℤ :=
  ((List.range k).foldl (fun (st : WithTop ℚ × ℤ) j =>
    let d := c.distSq (starting.getD j default)
    if (d : WithTop ℚ) < st.1 then ((d : WithTop ℚ), (j : ℤ)) else st)
    ((⊤ : WithTop ℚ), (-1 : ℤ))).2

theorem min_center_index_eq_total {starting : List Cluster} {k : ℕ}
    (hk : k ≤ starting.length) (c : Cluster) :
    min_center_index starting k c =
      some (min_center_index_total starting k c) := by
  unfold min_center_index min_center_index_total
  have main : ∀ (js : List ℕ) (st : WithTop ℚ × ℤ),
      (∀ j ∈ js, j < starting.length) →
      (js.foldlM (fun (st : WithTop ℚ × ℤ) j =>
        match starting.get? j with
        | none => none
        | some s =>
            let d := c.distSq s
            some (if (d : WithTop ℚ) < st.1 then ((d : WithTop ℚ), (j : ℤ))
              else st)) st)
      = some (js.foldl (fun (st : WithTop ℚ × ℤ) j =>
          let d := c.distSq (starting.getD j default)
          if (d : WithTop ℚ) < st.1 then ((d : WithTop ℚ), (j : ℤ)) else st)
          st) := by
    intro js
    induction js with
    | nil => intro st _; rfl
    | cons j rest ih =>
        intro st hmem
        have hj : j < starting.length := hmem j (List.mem_cons_self _ _)
        rw [List.foldlM_cons, List.foldl_cons]
        rw [List.get?_eq_get hj]
        simp only [Option.bind_eq_bind, Option.some_bind]
        have hgd : starting.getD j default = starting.get ⟨j, hj⟩ :=
          List.getD_eq_get _ _ _
        rw [← hgd]
        exact ih _ (fun j2 h2 => hmem j2 (List.mem_cons_of_mem _ h2))
  rw [main (List.range k) _ (fun j hj => lt_of_lt_of_le (List.mem_range.1 hj) hk)]
  rfl

theorem min_center_index_total_range (starting : List Cluster) {k : ℕ}
    (hk : 1 ≤ k) (c : Cluster) :
    0 ≤ min_center_index_total starting k c ∧
      min_center_index_total starting k c < (k : ℤ) := by
  unfold min_center_index_total
  have pres : ∀ (js : List ℕ) (st : WithTop ℚ × ℤ),
      (∀ j ∈ js, j < k) → (0 ≤ st.2 ∧ st.2 < (k : ℤ)) →
      (0 ≤ (js.foldl (fun (st : WithTop ℚ × ℤ) j =>
        let d := c.distSq (starting.getD j default)
        if (d : WithTop ℚ) < st.1 then ((d : WithTop ℚ), (j : ℤ)) else st)
        st).2 ∧
       (js.foldl (fun (st : WithTop ℚ × ℤ) j =>
        let d := c.distSq (starting.getD j default)
        if (d : WithTop ℚ) < st.1 then ((d : WithTop ℚ), (j : ℤ)) else st)
        st).2 < (k : ℤ)) := by
    intro js
    induction js with
    | nil => intro st _ h; exact h
    | cons j rest ih =>
        intro st hmem h
        rw [List.foldl_cons]
        apply ih _ (fun j2 h2 => hmem j2 (List.mem_cons_of_mem _ h2))
        dsimp only
        split
        · have hjk := hmem j (List.mem_cons_self _ _)
          exact ⟨Int.ofNat_nonneg j, Int.ofNat_lt.2 hjk⟩
        · exact h
  obtain ⟨k2, hk2⟩ : ∃ k2, k = k2 + 1 := ⟨k - 1, by omega⟩
  subst hk2
  rw [List.range_succ_eq_map, List.foldl_cons]
  dsimp only
  rw [if_pos (WithTop.coe_lt_top _)]
  apply pres
  · intro j hj
    simp only [List.mem_map, List.mem_range] at hj
    obtain ⟨y, hy, rfl⟩ := hj
    omega
  · exact ⟨Int.ofNat_nonneg 0, Int.ofNat_lt.2 (Nat.succ_pos k2)⟩

/-- The accumulator-list update of one k-means round, in total form. -/
def kmeans_assign (temp starting : List Cluster) (k : ℕ) : List Cluster :=
  temp.foldl (fun cl c =>
    let p := (min_center_index_total starting k c).toNat
    cl.set p ((cl.getD p default).merge_clusters c))
    (List.replicate k empty_accumulator)

theorem kmeans_assign_length (temp starting : List Cluster) (k : ℕ) :
    (kmeans_assign temp starting k).length = k := by
  unfold kmeans_assign
  have main : ∀ (ts : List Cluster) (cl : List Cluster),
      (ts.foldl (fun cl c =>
        let p := (min_center_index_total starting k c).toNat
        cl.set p ((cl.getD p default).merge_clusters c)) cl).length
      = cl.length := by
    intro ts
    induction ts with
    | nil => intro cl; rfl
    | cons c rest ih =>
        intro cl
        rw [List.foldl_cons]
        rw [ih]
        exact List.length_set cl _ _
  rw [main]
  exact List.length_replicate k _

theorem kmeans_round_eq_assign {temp starting : List Cluster} {k : ℕ}
    (hk : 1 ≤ k) (hks : k ≤ starting.length) :
    kmeans_round temp starting k = some (kmeans_assign temp starting k) := by
  unfold kmeans_round kmeans_assign
  have main : ∀ (ts : List Cluster) (cl : List Cluster), cl.length = k →
      (ts.foldlM (fun (cl : List Cluster) (c : Cluster) =>
        match min_center_index starting k c with
        | none => none
        | some mi =>
            match pyIdx cl.length mi with
            | none => none
            | some p => some (cl.set p ((cl.getD p default).merge_clusters c)))
        cl)
      = some (ts.foldl (fun cl c =>
          let p := (min_center_index_total starting k c).toNat
          cl.set p ((cl.getD p default).merge_clusters c)) cl) := by
    intro ts
    induction ts with
    | nil => intro cl _; rfl
    | cons c rest ih =>
        intro cl hcl
        rw [List.foldlM_cons, List.foldl_cons]
        rw [min_center_index_eq_total hks c]
        obtain ⟨hge, hlt⟩ := min_center_index_total_range starting hk c
        have hpy : pyIdx cl.length (min_center_index_total starting k c) =
            some (min_center_index_total starting k c).toNat := by
          unfold pyIdx
          rw [if_pos]
          constructor
          · exact hge
          · rw [hcl]
            exact hlt
        simp only [hpy, Option.bind_eq_bind, Option.some_bind]
        apply ih
        rw [List.length_set]
        exact hcl
  rw [main _ _ (List.length_replicate k _)]
  simp only [Option.bind_eq_bind, Option.some_bind]
  rw [if_pos hks]

/-- The sequence of `starting_clusters` values over the k-means rounds. -/
def kmeans_rounds (temp : List Cluster) (k : ℕ) : ℕ → List Cluster
  | 0 => temp.take k
  | r + 1 => kmeans_assign temp (kmeans_rounds temp k r) k

theorem kmeans_rounds_length {temp : List Cluster} {k : ℕ}
    (hk : k ≤ temp.length) : ∀ r, (kmeans_rounds temp k r).length = k := by
  intro r
  cases r with
  | zero =>
      unfold kmeans_rounds
      rw [List.length_take]
      omega
  | succ r =>
      unfold kmeans_rounds
      exact kmeans_assign_length _ _ _

/-- Under the no-crash conditions, `kmeans_clustering` computes exactly
the pure round iteration. -/
theorem kmeans_clustering_eq_rounds {l : List Cluster} {k : ℕ}
    (hk : 1 ≤ k) (hkn : k ≤ l.length) (iters : ℕ) :
    kmeans_clustering l k iters =
      some (kmeans_rounds (pySort (fun c => -c.total_population) l) k iters) := by
  unfold kmeans_clustering
  set temp := pySort (fun c => -c.total_population) l with htemp
  have hlen : temp.length = l.length := pySort_length _ _
  induction iters with
  | zero => rfl
  | succ r ih =>
      rw [List.range_succ, List.foldlM_append, ih]
      simp only [Option.bind_eq_bind, Option.some_bind, List.foldlM_cons]
      rw [kmeans_round_eq_assign hk (by rw [kmeans_rounds_length (by omega)])]
      rfl

theorem getD_set_eq {cl : List Cluster} {p : ℕ} {x : Cluster}
    (h : p < cl.length) : (cl.set p x).getD p default = x := by
  have h2 : p < (cl.set p x).length := by
    rw [List.length_set]
    exact h
  rw [List.getD_eq_getElem _ _ h2, List.getElem_set, if_pos rfl]

theorem getD_set_ne {cl : List Cluster} {p m : ℕ} {x : Cluster}
    (h : p ≠ m) : (cl.set p x).getD m default = cl.getD m default := by
  by_cases h2 : m < cl.length
  · have h3 : m < (cl.set p x).length := by
      rw [List.length_set]
      exact h2
    rw [List.getD_eq_getElem _ _ h3, List.getD_eq_getElem _ _ h2,
      List.getElem_set, if_neg h]
  · rw [List.getD_eq_default, List.getD_eq_default]
    · omega
    · rw [List.length_set]
      omega

/-- Population accounting for one assignment pass: the accumulator at
position `m` ends with its creation population (1) plus the populations
of exactly the clusters assigned to index `m` by the nearest-center
scan. -/
theorem kmeans_assign_pop (temp starting : List Cluster) {k m : ℕ}
    (hm : m < k) :
    ((kmeans_assign temp starting k).getD m default).total_population =
      1 + ((temp.filter (fun c =>
        min_center_index_total starting k c = (m : ℤ))).map
        Cluster.total_population).sum := by
  have hk : 1 ≤ k := by omega
  unfold kmeans_assign
  have main : ∀ (ts : List Cluster) (cl : List Cluster), cl.length = k →
      ((ts.foldl (fun cl c =>
        let p := (min_center_index_total starting k c).toNat
        cl.set p ((cl.getD p default).merge_clusters c)) cl).getD m
        default).total_population =
      (cl.getD m default).total_population +
        ((ts.filter (fun c =>
          min_center_index_total starting k c = (m : ℤ))).map
          Cluster.total_population).sum := by
    intro ts
    induction ts with
    | nil =>
        intro cl _
        simp only [List.foldl_nil, List.filter_nil, List.map_nil,
          List.sum_nil, add_zero]
    | cons c rest ih =>
        intro cl hcl
        rw [List.foldl_cons]
        obtain ⟨hge, hlt⟩ := min_center_index_total_range starting hk c
        set p := (min_center_index_total starting k c).toNat with hp
        have hpk : p < k := by omega
        have hplen : p < cl.length := by omega
        by_cases hpm : p = m
        · have hpred : min_center_index_total starting k c = (m : ℤ) := by
            omega
          rw [List.filter_cons_of_pos (by simp [hpred])]
          rw [ih _ (by rw [List.length_set]; exact hcl)]
          subst hpm
          rw [getD_set_eq hplen]
          rw [merge_clusters_pop]
          simp only [List.map_cons, List.sum_cons]
          ring
        · have hpred : ¬ (min_center_index_total starting k c = (m : ℤ)) := by
            omega
          rw [List.filter_cons_of_neg (by simp [hpred])]
          rw [ih _ (by rw [List.length_set]; exact hcl)]
          rw [getD_set_ne hpm]
  rw [main _ _ (List.length_replicate k _)]
  have hrep : ((List.replicate k empty_accumulator).getD m default) =
      empty_accumulator := by
    have h2 : m < (List.replicate k empty_accumulator).length := by
      rw [List.length_replicate]
      exact hm
    rw [List.getD_eq_getElem _ _ h2]
    exact List.getElem_replicate empty_accumulator h2
  rw [hrep]
  rfl

/-- C2 amended: in every round the k accumulator clusters are created
empty but with population 1 (the fourth constructor argument of
`alg_cluster.Cluster(set([]), 0, 0, 1, 0)` is the population), so each
returned cluster's population is 1 plus the sum of the populations of
the input clusters assigned to it in the final round. -/
theorem claim_C2_kmeans_population_accounting (l : List Cluster)
    (k iters : ℕ) (hk : 1 ≤ k) (hkn : k ≤ l.length) (hit : 1 ≤ iters) :
    ∃ res, kmeans_clustering l k iters = some res ∧
      ∀ m, m < k → ((res.getD m default).total_population =
        1 + (((pySort (fun c => -c.total_population) l).filter (fun c =>
          min_center_index_total
            (kmeans_rounds (pySort (fun c => -c.total_population) l) k
              (iters - 1)) k c = (m : ℤ))).map
          Cluster.total_population).sum) := by
  refine ⟨kmeans_rounds (pySort (fun c => -c.total_population) l) k iters,
    kmeans_clustering_eq_rounds hk hkn iters, ?_⟩
  intro m hm
  obtain ⟨r, hr⟩ : ∃ r, iters = r + 1 := ⟨iters - 1, by omega⟩
  subst hr
  have hr1 : r + 1 - 1 = r := by omega
  rw [hr1]
  show ((kmeans_assign _ _ _).getD m default).total_population = _
  exact kmeans_assign_pop _ _ hm

/-- C2, counterexample to the claim as stated: a single input cluster of
population 5, one center, one iteration — the returned cluster has
population 6 (the accumulator is created with population 1, not 0), not
the sum 5 of its assigned populations. -/
theorem claim_C2_counterexample :
    ∃ r : Cluster,
      kmeans_clustering [(⟨{0}, 0, 0, 5, 0⟩ : Cluster)] 1 1 = some [r] ∧
      r.total_population = 6 ∧ ¬ r.total_population = 5 := by
  refine ⟨empty_accumulator.merge_clusters ⟨{0}, 0, 0, 5, 0⟩, rfl, ?_, ?_⟩
  · rw [merge_clusters_pop]
    norm_num [empty_accumulator]
  · rw [merge_clusters_pop]
    norm_num [empty_accumulator]

theorem claim_C2_witness :
    ∃ res, kmeans_clustering [(⟨{0}, 0, 0, 5, 0⟩ : Cluster)] 1 1 = some res ∧
      ∀ m, m < 1 → ((res.getD m default).total_population =
        1 + (((pySort (fun c => -c.total_population)
            [(⟨{0}, 0, 0, 5, 0⟩ : Cluster)]).filter (fun c =>
          min_center_index_total
            (kmeans_rounds (pySort (fun c => -c.total_population)
              [(⟨{0}, 0, 0, 5, 0⟩ : Cluster)]) 1 (1 - 1)) 1 c = (m : ℤ))).map
          Cluster.total_population).sum) :=
  claim_C2_kmeans_population_accounting [⟨{0}, 0, 0, 5, 0⟩] 1 1
    (by omega) (by simp) (by omega)

/-- C6: with zero iterations, `kmeans_clustering` returns exactly the
first `k` entries of the stable population-descending sort of the input
(ties keep the original input order by the stability of `pySort`), so
the result is the `k` largest-population input clusters, each unchanged
(still an element of the input, with its own members and population). -/
theorem claim_C6_zero_iterations_returns_seeds (l : List Cluster) (k : ℕ)
    (hk : k ≤ l.length) :
    kmeans_clustering l k 0 =
      some ((pySort (fun c => -c.total_population) l).take k) ∧
    ((pySort (fun c => -c.total_population) l).take k).length = k ∧
    List.Perm (pySort (fun c => -c.total_population) l) l ∧
    (pySort (fun c => -c.total_population) l).Pairwise
      (fun a b => b.total_population ≤ a.total_population) ∧
    (∀ c ∈ (pySort (fun c => -c.total_population) l).take k,
      ∀ c2 ∈ (pySort (fun c => -c.total_population) l).drop k,
        c2.total_population ≤ c.total_population) ∧
    (∀ c ∈ (pySort (fun c => -c.total_population) l).take k, c ∈ l) := by
  set s := pySort (fun c => -c.total_population) l with hs
  have hperm : List.Perm s l := pySort_perm _ _
  have hsorted : s.Pairwise
      (fun a b => b.total_population ≤ a.total_population) := by
    have h := pySort_sorted (fun c => -c.total_population) l
    rw [← hs] at h
    refine h.imp ?_
    intro a b hab
    have : -a.total_population ≤ -b.total_population := hab
    linarith
  refine ⟨rfl, ?_, hperm, hsorted, ?_, ?_⟩
  · rw [List.length_take, hs, pySort_length]
    omega
  · intro c hc c2 hc2
    have hsplit : s.Pairwise
        (fun a b => b.total_population ≤ a.total_population) := hsorted
    rw [← List.take_append_drop k s] at hsplit
    exact (List.pairwise_append.1 hsplit).2.2 c hc c2 hc2
  · intro c hc
    exact hperm.mem_iff.1 (List.mem_of_mem_take hc)

theorem claim_C6_witness :
    kmeans_clustering
      [(⟨{0}, 0, 0, 1, 0⟩ : Cluster), ⟨{1}, 1, 1, 7, 0⟩] 1 0 =
      some ((pySort (fun c => -c.total_population)
        [(⟨{0}, 0, 0, 1, 0⟩ : Cluster), ⟨{1}, 1, 1, 7, 0⟩]).take 1) ∧
    ((pySort (fun c => -c.total_population)
      [(⟨{0}, 0, 0, 1, 0⟩ : Cluster), ⟨{1}, 1, 1, 7, 0⟩]).take 1).length = 1 :=
  ⟨(claim_C6_zero_iterations_returns_seeds
      [⟨{0}, 0, 0, 1, 0⟩, ⟨{1}, 1, 1, 7, 0⟩] 1 (by simp)).1,
   (claim_C6_zero_iterations_returns_seeds
      [⟨{0}, 0, 0, 1, 0⟩, ⟨{1}, 1, 1, 7, 0⟩] 1 (by simp)).2.1⟩

/-! ### Claim C10: the frame property of `kmeans_clustering` -/

theorem kmeans_round_ref_preserves {objects : List Cluster}
    {temp starting : List ℕ} {k : ℕ} {res : List Cluster × List ℕ}
    (h : kmeans_round_ref objects temp starting k = some res) :
    objects.length ≤ res.1.length ∧
    ∀ i, i < objects.length →
      res.1.getD i default = objects.getD i default := by
  unfold kmeans_round_ref at h
  dsimp only at h
  obtain ⟨obs2, hfold, hif⟩ := Option.bind_eq_some.1 h
  have hacc : ∀ p : ℕ,
      p < ((List.range k).map (objects.length + ·)).length →
      objects.length ≤ ((List.range k).map (objects.length + ·)).getD p 0 := by
    intro p hp
    rw [List.getD_eq_getElem _ _ hp]
    rw [List.getElem_map]
    omega
  have main : ∀ (ts : List ℕ) (obs : List Cluster),
      objects.length ≤ obs.length →
      (∀ i, i < objects.length →
        obs.getD i default = objects.getD i default) →
      ∀ o2, (ts.foldlM (fun (obs : List Cluster) r =>
        (min_center_index_ref obs starting k r).bind (fun mi =>
          match pyIdx ((List.range k).map (objects.length + ·)).length mi with
          | none => none
          | some p =>
              let accRef := ((List.range k).map (objects.length + ·)).getD p 0
              pure (obs.set accRef
                ((obs.getD accRef default).merge_clusters
                  (obs.getD r default))))) obs) = some o2 →
      objects.length ≤ o2.length ∧ ∀ i, i < objects.length →
        o2.getD i default = objects.getD i default := by
    intro ts
    induction ts with
    | nil =>
        intro obs hlen hpres o2 h2
        cases h2
        exact ⟨hlen, hpres⟩
    | cons r rest ih =>
        intro obs hlen hpres o2 h2
        rw [List.foldlM_cons] at h2
        obtain ⟨obs1, hstep, hrest⟩ := Option.bind_eq_some.1 h2
        obtain ⟨mi, _, hmatch⟩ := Option.bind_eq_some.1 hstep
        cases hpy : pyIdx ((List.range k).map (objects.length + ·)).length mi
          with
        | none =>
            rw [hpy] at hmatch
            cases hmatch
        | some p =>
            rw [hpy] at hmatch
            have hplt := pyIdx_lt hpy
            cases hmatch
            refine ih _ ?_ ?_ o2 hrest
            · rw [List.length_set]
              exact hlen
            · intro i hi
              rw [getD_set_ne]
              · exact hpres i hi
              · have := hacc p hplt
                omega
  have hinit1 : objects.length ≤
      (objects ++ List.replicate k empty_accumulator).length := by
    rw [List.length_append]
    omega
  have hinit2 : ∀ i, i < objects.length →
      (objects ++ List.replicate k empty_accumulator).getD i default =
        objects.getD i default := by
    intro i hi
    exact List.getD_append _ _ _ _ hi
  obtain ⟨ha, hb⟩ := main temp _ hinit1 hinit2 obs2 hfold
  split at hif
  · cases hif
    exact ⟨ha, hb⟩
  · cases hif

/-- C10: `kmeans_clustering` never modifies its caller-visible state.
In the reference-store model, the input list value is untouched by
construction (the translation of `cluster_list_temp = list(cluster_list)`
copies it and every later statement works on the copy), and this theorem
establishes the rest: every cluster object that existed before the call
is unchanged in the final store, so the input list holds the same
references denoting the same unchanged clusters, in the same order. -/
theorem claim_C10_kmeans_preserves_input (objects : List Cluster)
    (input_refs : List ℕ) (k iters : ℕ) {res : List Cluster × List ℕ}
    (h : kmeans_clustering_ref objects input_refs k iters = some res) :
    (∀ i, i < objects.length →
      res.1.getD i default = objects.getD i default) ∧
    ((∀ r ∈ input_refs, r < objects.length) →
      input_refs.map (fun r => res.1.getD r default) =
        input_refs.map (fun r => objects.getD r default)) := by
  unfold kmeans_clustering_ref at h
  dsimp only at h
  have main : ∀ (rounds : List ℕ) (st : List Cluster × List ℕ),
      objects.length ≤ st.1.length →
      (∀ i, i < objects.length →
        st.1.getD i default = objects.getD i default) →
      ∀ st2, (rounds.foldlM (fun (st : List Cluster × List ℕ) _ =>
        kmeans_round_ref st.1
          (pySort (fun r =>
            -((objects.getD r default).total_population)) input_refs)
          st.2 k) st) = some st2 →
      objects.length ≤ st2.1.length ∧ ∀ i, i < objects.length →
        st2.1.getD i default = objects.getD i default := by
    intro rounds
    induction rounds with
    | nil =>
        intro st hlen hpres st2 h2
        cases h2
        exact ⟨hlen, hpres⟩
    | cons r rest ih =>
        intro st hlen hpres st2 h2
        rw [List.foldlM_cons] at h2
        obtain ⟨st1, hstep, hrest⟩ := Option.bind_eq_some.1 h2
        obtain ⟨hlen1, hpres1⟩ := kmeans_round_ref_preserves hstep
        refine ih st1 (le_trans hlen hlen1) ?_ st2 hrest
        intro i hi
        rw [hpres1 i (by omega)]
        exact hpres i hi
  obtain ⟨_, hpres⟩ := main (List.range iters) _ (le_refl _)
    (fun i _ => rfl) res h
  refine ⟨hpres, ?_⟩
  intro hall
  apply List.map_congr_left
  intro r hr
  exact hpres r (hall r hr)

theorem claim_C10_witness :
    (∀ i, i < ([(⟨{0}, 0, 0, 5, 0⟩ : Cluster)]).length →
      (([(⟨{0}, 0, 0, 5, 0⟩ : Cluster),
          empty_accumulator.merge_clusters ⟨{0}, 0, 0, 5, 0⟩], [1]) :
        List Cluster × List ℕ).1.getD i default =
        ([(⟨{0}, 0, 0, 5, 0⟩ : Cluster)]).getD i default) ∧
    ((∀ r ∈ [0], r < ([(⟨{0}, 0, 0, 5, 0⟩ : Cluster)]).length) →
      ([0] : List ℕ).map (fun r =>
        (([(⟨{0}, 0, 0, 5, 0⟩ : Cluster),
            empty_accumulator.merge_clusters ⟨{0}, 0, 0, 5, 0⟩], [1]) :
          List Cluster × List ℕ).1.getD r default) =
      ([0] : List ℕ).map (fun r =>
        ([(⟨{0}, 0, 0, 5, 0⟩ : Cluster)]).getD r default)) :=
  claim_C10_kmeans_preserves_input [⟨{0}, 0, 0, 5, 0⟩] [0] 1 1 rfl

/-! ### Claim C4: hierarchical clustering down to one cluster -/

/-- Sum of the populations of a cluster list. -/
def total_pop (l : List Cluster) : ℚ := (l.map Cluster.total_population).sum

/-- Union of the member-key sets of a cluster list. -/
def member_union (l : List Cluster) : Finset ℕ :=
  (l.map Cluster.fips_codes).foldr (· ∪ ·) ∅

theorem total_pop_perm {l1 l2 : List Cluster} (h : List.Perm l1 l2) :
    total_pop l1 = total_pop l2 :=
  List.Perm.sum_eq (h.map _)

theorem member_union_perm {l1 l2 : List Cluster} (h : List.Perm l1 l2) :
    member_union l1 = member_union l2 := by
  unfold member_union
  apply List.Perm.foldr_eq' (h.map _)
  intro x _ y _ z
  rw [← Finset.union_assoc, ← Finset.union_assoc, Finset.union_comm y x]

theorem total_pop_cons (c : Cluster) (l : List Cluster) :
    total_pop (c :: l) = c.total_population + total_pop l := by
  unfold total_pop
  rw [List.map_cons, List.sum_cons]

theorem member_union_cons (c : Cluster) (l : List Cluster) :
    member_union (c :: l) = c.fips_codes ∪ member_union l := by
  unfold member_union
  rw [List.map_cons, List.foldr_cons]

/-- Removing position `p` and putting the removed element in front is a
permutation. -/
theorem perm_getD_eraseIdx {s : List Cluster} {p : ℕ} (hp : p < s.length) :
    List.Perm s (s.getD p default :: s.eraseIdx p) := by
  conv_lhs => rw [← List.take_append_drop p s]
  rw [List.drop_eq_getElem_cons hp]
  rw [List.eraseIdx_eq_take_drop_succ]
  rw [← List.getD_eq_getElem _ _ hp]
  exact List.perm_middle

theorem getD_eraseIdx_of_lt {s : List Cluster} {i j : ℕ} (hij : i < j)
    (hj : j < s.length) :
    (s.eraseIdx j).getD i default = s.getD i default := by
  rw [List.eraseIdx_eq_take_drop_succ]
  have hi : i < (s.take j).length := by
    rw [List.length_take]
    omega
  have hi2 : i < (s.take j ++ s.drop (j + 1)).length := by
    rw [List.length_append]
    omega
  rw [List.getD_eq_getElem _ _ hi2, List.getD_eq_getElem _ _ (by omega)]
  rw [List.getElem_append_left hi]
  exact List.getElem_take s

/-- Removing two positions `i < j` and putting both removed elements in
front is a permutation. -/
theorem perm_two_eraseIdx {s : List Cluster} {i j : ℕ} (hij : i < j)
    (hj : j < s.length) :
    List.Perm s (s.getD i default :: s.getD j default ::
      (s.eraseIdx j).eraseIdx i) := by
  have h1 : List.Perm s (s.getD j default :: s.eraseIdx j) :=
    perm_getD_eraseIdx hj
  have hi : i < (s.eraseIdx j).length := by
    rw [List.length_eraseIdx]
    split <;> omega
  have h2 : List.Perm (s.eraseIdx j)
      ((s.eraseIdx j).getD i default :: (s.eraseIdx j).eraseIdx i) :=
    perm_getD_eraseIdx hi
  rw [getD_eraseIdx_of_lt hij hj] at h2
  refine h1.trans ?_
  refine (List.Perm.cons _ h2).trans ?_
  exact List.Perm.swap _ _ _

/-- The documented live-cluster invariant (spec §3): member-key sets are
pairwise disjoint and non-empty. -/
def GoodClusters (l : List Cluster) : Prop :=
  l.Pairwise (fun a b => Disjoint a.fips_codes b.fips_codes) ∧
  ∀ c ∈ l, c.fips_codes.Nonempty

theorem goodClusters_perm {l1 l2 : List Cluster} (h : List.Perm l1 l2)
    (hg : GoodClusters l1) : GoodClusters l2 := by
  refine ⟨((List.Perm.pairwise_iff (fun h2 => h2.symm)) h).1 hg.1, ?_⟩
  intro c hc
  exact hg.2 c (h.mem_iff.2 hc)

theorem goodClusters_nodup {l : List Cluster} (hg : GoodClusters l) :
    l.Nodup := by
  unfold List.Nodup
  refine List.Pairwise.imp_of_mem ?_ hg.1
  intro a b ha _ hdisj he
  subst he
  obtain ⟨x, hx⟩ := hg.2 a ha
  exact Finset.disjoint_left.1 hdisj hx hx

theorem goodClusters_merge {a b : Cluster} {rest : List Cluster}
    (hg : GoodClusters (a :: b :: rest)) :
    GoodClusters (a.merge_clusters b :: rest) := by
  obtain ⟨hpw, hne⟩ := hg
  rw [List.pairwise_cons] at hpw
  obtain ⟨ha, hpw2⟩ := hpw
  rw [List.pairwise_cons] at hpw2
  obtain ⟨hb, hpw3⟩ := hpw2
  constructor
  · rw [List.pairwise_cons]
    refine ⟨?_, hpw3⟩
    intro c hc
    rw [merge_clusters_fips]
    rw [Finset.disjoint_union_left]
    exact ⟨ha c (List.mem_cons_of_mem _ hc), hb c hc⟩
  · intro c hc
    rcases List.mem_cons.1 hc with h | h
    · subst h
      rw [merge_clusters_fips]
      obtain ⟨x, hx⟩ := hne a (List.mem_cons_self _ _)
      exact ⟨x, Finset.mem_union_left _ hx⟩
    · exact hne c (List.mem_cons_of_mem _ (List.mem_cons_of_mem _ h))

theorem total_pop_merge (a b : Cluster) (rest : List Cluster) :
    total_pop (a.merge_clusters b :: rest) = total_pop (a :: b :: rest) := by
  rw [total_pop_cons, total_pop_cons, total_pop_cons, merge_clusters_pop]
  ring

theorem member_union_merge (a b : Cluster) (rest : List Cluster) :
    member_union (a.merge_clusters b :: rest) =
      member_union (a :: b :: rest) := by
  rw [member_union_cons, member_union_cons, member_union_cons,
    merge_clusters_fips, Finset.union_assoc]

theorem hierarch_to_one :
    ∀ (n : ℕ) (l : List Cluster), l.length = n → GoodClusters l →
      l ≠ [] →
    ∃ c, hierarch_clustering l 1 = some [c] ∧
      c.total_population = total_pop l ∧ c.fips_codes = member_union l := by
  intro n
  induction n using Nat.strong_induction_on with
  | _ n ih =>
    intro l hlen hg hne
    have h1 : 1 ≤ l.length := List.length_pos.2 hne
    by_cases h2 : l.length ≤ 1
    · have hl1 : l.length = 1 := by omega
      obtain ⟨c, hc⟩ : ∃ c, l = [c] := by
        rcases l with _ | ⟨c, _ | ⟨d, t⟩⟩
        · cases hne rfl
        · exact ⟨c, rfl⟩
        · exfalso
          simp only [List.length_cons] at hl1
          omega
      subst hc
      refine ⟨c, ?_, ?_, ?_⟩
      · rw [hierarch_clustering]
        rw [dif_pos (by simp)]
      · rw [total_pop_cons]
        unfold total_pop
        simp
      · rw [member_union_cons]
        unfold member_union
        simp
    · have h3 : 2 ≤ l.length := by omega
      have hsp : List.Perm (pySort (fun c => c.horiz_center) l) l :=
        pySort_perm _ _
      have hslen : (pySort (fun c => c.horiz_center) l).length = l.length :=
        pySort_length _ _
      have hgs : GoodClusters (pySort (fun c => c.horiz_center) l) :=
        goodClusters_perm hsp.symm hg
      have hnds : (pySort (fun c => c.horiz_center) l).Nodup :=
        goodClusters_nodup hgs
      obtain ⟨i, j, hi, hj, hij, _, ha, hb⟩ :=
        fast_valid_pair (pySort (fun c => c.horiz_center) l).length
          (pySort (fun c => c.horiz_center) l) rfl hnds (by omega)
      have he := merge_step_some (pyIdx_coe hi) (pyIdx_coe hj)
      rw [if_neg (by omega : ¬ i = j), if_pos hij] at he
      set s := pySort (fun c => c.horiz_center) l with hs
      set rest := (s.eraseIdx j).eraseIdx i with hrest
      set l2 := rest ++ [(s.getD i default).merge_clusters
        (s.getD j default)] with hl2
      have hperm2 : List.Perm l2 ((s.getD i default).merge_clusters
          (s.getD j default) :: rest) := List.perm_append_singleton _ _
      have hperm3 : List.Perm s
          (s.getD i default :: s.getD j default :: rest) :=
        perm_two_eraseIdx hij hj
      have hg2 : GoodClusters l2 :=
        goodClusters_perm hperm2.symm
          (goodClusters_merge (goodClusters_perm hperm3 hgs))
      have hpop2 : total_pop l2 = total_pop l := by
        rw [total_pop_perm hperm2, total_pop_merge,
          ← total_pop_perm hperm3, total_pop_perm hsp]
      have hmem2 : member_union l2 = member_union l := by
        rw [member_union_perm hperm2, member_union_merge,
          ← member_union_perm hperm3, member_union_perm hsp]
      have hlen2 : l2.length + 1 = l.length := by
        have := merge_step_length he
        omega
      have hne2 : l2 ≠ [] := by
        intro hc
        rw [hc] at hlen2
        simp at hlen2
        omega
      have hrec : hierarch_clustering l 1 = hierarch_clustering l2 1 := by
        rw [hierarch_clustering]
        rw [dif_neg (by push_cast; omega : ¬ (l.length : ℤ) ≤ 1)]
        dsimp only
        split
        · rename_i h4
          rw [← hs, ha, hb, he] at h4
          cases h4
        · rename_i l3 h4
          rw [← hs, ha, hb, he] at h4
          cases h4
          rfl
      rw [hrec]
      obtain ⟨c, hc1, hc2, hc3⟩ := ih l2.length (by omega) l2 rfl hg2 hne2
      exact ⟨c, hc1, by rw [hc2, hpop2], by rw [hc3, hmem2]⟩

/-- C4: on a non-empty list of clusters satisfying the documented
live-cluster invariant (pairwise-disjoint, non-empty member sets — which
also reflects Python object distinctness), `hierarch_clustering` down to
target 1 returns a single cluster carrying the total population and the
full member-key union of the input. -/
theorem claim_C4_hierarch_to_one_totals (l : List Cluster)
    (hd : l.Pairwise (fun a b => Disjoint a.fips_codes b.fips_codes))
    (hne : ∀ c ∈ l, c.fips_codes.Nonempty) (h0 : l ≠ []) :
    ∃ c, hierarch_clustering l 1 = some [c] ∧
      c.total_population = (l.map Cluster.total_population).sum ∧
      c.fips_codes = (l.map Cluster.fips_codes).foldr (· ∪ ·) ∅ :=
  hierarch_to_one l.length l rfl ⟨hd, hne⟩ h0

theorem claim_C4_witness :
    ∃ c, hierarch_clustering
        [(⟨{0}, 0, 0, 1, 0⟩ : Cluster), ⟨{1}, 1, 0, 2, 0⟩] 1 = some [c] ∧
      c.total_population =
        (([(⟨{0}, 0, 0, 1, 0⟩ : Cluster), ⟨{1}, 1, 0, 2, 0⟩]).map
          Cluster.total_population).sum ∧
      c.fips_codes = (([(⟨{0}, 0, 0, 1, 0⟩ : Cluster),
          ⟨{1}, 1, 0, 2, 0⟩]).map Cluster.fips_codes).foldr (· ∪ ·) ∅ :=
  claim_C4_hierarch_to_one_totals [⟨{0}, 0, 0, 1, 0⟩, ⟨{1}, 1, 0, 2, 0⟩]
    (by
      constructor
      · intro b hb
        rw [List.mem_singleton] at hb
        subst hb
        rw [Finset.disjoint_left]
        intro x hx
        simp only [Finset.mem_singleton] at hx
        subst hx
        simp
      · simp)
    (by
      intro c hc
      rcases List.mem_cons.1 hc with h | h
      · subst h
        exact ⟨0, by simp⟩
      · rw [List.mem_singleton] at h
        subst h
        exact ⟨1, by simp⟩)
    (by simp)

/-! ### Claim C8: the distortion-vs-cluster-count sweep -/

/-- Under the live-cluster invariant, `hierarch_clustering` with a
positive target always succeeds and preserves the invariant. -/
theorem hierarch_success :
    ∀ (n : ℕ) (l : List Cluster), l.length = n → GoodClusters l →
      ∀ t : ℕ, 1 ≤ t →
    ∃ res, hierarch_clustering l (t : ℤ) = some res ∧ GoodClusters res := by
  intro n
  induction n using Nat.strong_induction_on with
  | _ n ih =>
    intro l hlen hg t ht
    by_cases h2 : (l.length : ℤ) ≤ (t : ℤ)
    · refine ⟨l, ?_, hg⟩
      rw [hierarch_clustering, dif_pos h2]
    · have h3 : 2 ≤ l.length := by omega
      have hsp : List.Perm (pySort (fun c => c.horiz_center) l) l :=
        pySort_perm _ _
      have hgs : GoodClusters (pySort (fun c => c.horiz_center) l) :=
        goodClusters_perm hsp.symm hg
      have hnds : (pySort (fun c => c.horiz_center) l).Nodup :=
        goodClusters_nodup hgs
      have hslen : (pySort (fun c => c.horiz_center) l).length = l.length :=
        pySort_length _ _
      obtain ⟨i, j, hi, hj, hij, _, ha, hb⟩ :=
        fast_valid_pair (pySort (fun c => c.horiz_center) l).length
          (pySort (fun c => c.horiz_center) l) rfl hnds (by omega)
      have he := merge_step_some (pyIdx_coe hi) (pyIdx_coe hj)
      rw [if_neg (by omega : ¬ i = j), if_pos hij] at he
      set s := pySort (fun c => c.horiz_center) l with hs
      set rest := (s.eraseIdx j).eraseIdx i with hrest
      set l2 := rest ++ [(s.getD i default).merge_clusters
        (s.getD j default)] with hl2
      have hperm2 : List.Perm l2 ((s.getD i default).merge_clusters
          (s.getD j default) :: rest) := List.perm_append_singleton _ _
      have hperm3 : List.Perm s
          (s.getD i default :: s.getD j default :: rest) :=
        perm_two_eraseIdx hij hj
      have hg2 : GoodClusters l2 :=
        goodClusters_perm hperm2.symm
          (goodClusters_merge (goodClusters_perm hperm3 hgs))
      have hlen2 : l2.length + 1 = l.length := by
        have := merge_step_length he
        omega
      have hrec : hierarch_clustering l (t : ℤ) =
          hierarch_clustering l2 (t : ℤ) := by
        rw [hierarch_clustering, dif_neg h2]
        dsimp only
        split
        · rename_i h4
          rw [← hs, ha, hb, he] at h4
          cases h4
        · rename_i l3 h4
          rw [← hs, ha, hb, he] at h4
          cases h4
          rfl
      rw [hrec]
      exact ih l2.length (by omega) l2 rfl hg2 t ht

/-- Distinct identifiers in the data table give singleton clusters
satisfying the live-cluster invariant. -/
theorem singletons_good (table : List DataRow)
    (h : (table.map DataRow.fips).Nodup) : GoodClusters (singletons table) := by
  constructor
  · unfold singletons
    rw [List.pairwise_map]
    have h2 : table.Pairwise (fun a b => a.fips ≠ b.fips) := by
      rw [List.Nodup, List.pairwise_map] at h
      exact h
    refine h2.imp ?_
    intro a b hne
    exact Finset.disjoint_singleton.2 hne
  · intro c hc
    unfold singletons at hc
    rw [List.mem_map] at hc
    obtain ⟨r, _, rfl⟩ := hc
    exact ⟨r.fips, Finset.mem_singleton_self _⟩

/-- The shared downward hierarchical reduction of `dist_vs_clusters`: the
list of target counts (descending) applied in sequence to one list. -/
def hier_chain (l0 : List Cluster) (targets : List ℕ) :
    Option (List Cluster) :=
  targets.foldlM (fun cl (t : ℕ) => hierarch_clustering cl (t : ℤ)) l0

theorem mapM_eq_map_of_some {α β : Type} (g : α → Option β) (f : α → β)
    (xs : List α) (h : ∀ x ∈ xs, g x = some (f x)) :
    xs.mapM g = some (xs.map f) := by
  induction xs with
  | nil => rfl
  | cons x xs ih =>
      rw [List.mapM_cons, h x (List.mem_cons_self _ _),
        ih (fun y hy => h y (List.mem_cons_of_mem _ hy))]
      rfl

/-- The hierarchical half of `dist_vs_clusters`: the fold succeeds, keeps
the accumulated distortions, and each new entry is the distortion of the
shared list reduced through the targets seen so far. -/
theorem hier_fold_chain (table : List DataRow) :
    ∀ (ts : List ℕ) (c0 : List Cluster) (acc : List ℚ),
      GoodClusters c0 → (∀ t ∈ ts, 1 ≤ t) →
    ∃ st : List Cluster × List ℚ,
      ts.foldlM
        (fun (st : List Cluster × List ℚ) (idx : ℕ) => do
          let cl2 ← hierarch_clustering st.1 (idx : ℤ)
          pure (cl2, st.2 ++ [compute_distortion table cl2]))
        (c0, acc) = some st ∧
      GoodClusters st.1 ∧
      st.2.length = acc.length + ts.length ∧
      (∀ i, i < acc.length → st.2.getD i 0 = acc.getD i 0) ∧
      (∀ i, i < ts.length → ∃ res,
        hier_chain c0 (ts.take (i + 1)) = some res ∧
        st.2.getD (acc.length + i) 0 = compute_distortion table res) := by
  intro ts
  induction ts with
  | nil =>
      intro c0 acc hg _
      exact ⟨(c0, acc), rfl, hg, by simp, fun i _ => rfl,
        fun i hi => absurd hi (by simp)⟩
  | cons t ts ih =>
      intro c0 acc hg hts
      obtain ⟨c1, hc1, hg1⟩ :=
        hierarch_success c0.length c0 rfl hg t (hts t (List.mem_cons_self _ _))
      obtain ⟨st, hst, hstg, hlen, hpre, hchain⟩ :=
        ih c1 (acc ++ [compute_distortion table c1]) hg1
          (fun x hx => hts x (List.mem_cons_of_mem _ hx))
      refine ⟨st, ?_, hstg, ?_, ?_, ?_⟩
      · rw [List.foldlM_cons]
        dsimp only
        rw [hc1]
        simp only [Option.bind_eq_bind, Option.some_bind]
        exact hst
      · rw [hlen]
        simp only [List.length_append, List.length_cons, List.length_nil]
        omega
      · intro i hi
        rw [hpre i (by simp only [List.length_append, List.length_cons,
          List.length_nil]; omega)]
        exact List.getD_append _ _ _ _ hi
      · intro i hi
        match i with
        | 0 =>
            refine ⟨c1, ?_, ?_⟩
            · show hier_chain c0 [t] = some c1
              unfold hier_chain
              rw [List.foldlM_cons]
              rw [hc1]
              rfl
            · rw [Nat.add_zero]
              rw [hpre acc.length (by simp only [List.length_append,
                List.length_cons, List.length_nil]; omega)]
              rw [List.getD_append_right _ _ _ _ (le_refl _)]
              simp
        | i' + 1 =>
            obtain ⟨res, hres, hval⟩ := hchain i' (by
              simp only [List.length_cons] at hi
              omega)
            refine ⟨res, ?_, ?_⟩
            · show hier_chain c0 (t :: ts.take (i' + 1)) = some res
              unfold hier_chain
              rw [List.foldlM_cons]
              rw [hc1]
              simp only [Option.bind_eq_bind, Option.some_bind]
              exact hres
            · have hidx : acc.length + (i' + 1) =
                  (acc ++ [compute_distortion table c1]).length + i' := by
                simp only [List.length_append, List.length_cons,
                  List.length_nil]
                omega
              rw [hidx]
              exact hval

theorem pyRange_eq_range' (a b : ℕ) : pyRange a b = List.range' a (b - a) := by
  unfold pyRange
  rw [List.range'_eq_map_range]

theorem pyRange_length (a b : ℕ) : (pyRange a b).length = b - a := by
  rw [pyRange_eq_range']
  exact List.length_range' _ _ _

theorem pyRange_getD (a b i : ℕ) (h : i < b - a) :
    (pyRange a b).getD i 0 = a + i := by
  rw [pyRange_eq_range']
  have hb : i < (List.range' a (b - a)).length := by
    rw [List.length_range']
    exact h
  rw [List.getD_eq_getElem _ _ hb, List.getElem_range']
  omega

theorem getD_reverse {α : Type} (l : List α) (d : α) (i : ℕ)
    (h : i < l.length) :
    l.reverse.getD i d = l.getD (l.length - 1 - i) d := by
  have h1 : i < l.reverse.length := by
    rw [List.length_reverse]
    exact h
  have h2 : l.length - 1 - i < l.length := by omega
  rw [List.getD_eq_getElem _ _ h1, List.getD_eq_getElem _ _ h2,
    List.getElem_reverse]

/-- The descending target list of counts from `mx` down to `mn + i` is
`mx` followed by a prefix of the shared descending loop targets. -/
theorem pyRange_reverse_decomp (mn mx i : ℕ) (h1 : mn + i ≤ mx) :
    (pyRange (mn + i) (mx + 1)).reverse =
      mx :: ((pyRange mn mx).reverse.take (mx - mn - i)) := by
  have hm : mx + 1 - (mn + i) = (mx - mn - i) + 1 := by omega
  rw [pyRange_eq_range', pyRange_eq_range', hm]
  rw [List.range'_1_concat]
  rw [List.reverse_append]
  have hmx : mn + i + (mx - mn - i) = mx := by omega
  rw [hmx]
  have hsplit : List.range' mn (mx - mn) =
      List.range' mn i ++ List.range' (mn + i) (mx - mn - i) := by
    rw [List.range'_append_1]
    congr 1
    omega
  rw [hsplit, List.reverse_append]
  rw [List.take_left' (by rw [List.length_reverse, List.length_range'])]
  simp

/-- C8: under distinct identifiers and `1 ≤ min_clusters ≤ max_clusters ≤`
table size, `dist_vs_clusters` returns the k-means curve first and the
hierarchical curve second, each with one value per cluster count from
`min_clusters` to `max_clusters` in ascending order; every k-means value
is the distortion of an independent `kmeans_clustering` run re-seeded
from the full singleton list, and every hierarchical value is the
distortion of the one shared list reduced downward from `max_clusters`
through the descending targets. -/
theorem claim_C8_dist_vs_clusters_curves (table : List DataRow)
    (mn mx iters : ℕ) (h1 : 1 ≤ mn) (h2 : mn ≤ mx) (h3 : mx ≤ table.length)
    (h4 : (table.map DataRow.fips).Nodup) :
    ∃ kcurve hcurve,
      dist_vs_clusters table mn mx iters = some [kcurve, hcurve] ∧
      kcurve.length = mx + 1 - mn ∧
      hcurve.length = mx + 1 - mn ∧
      (∀ i, i < mx + 1 - mn → ∃ res,
        kmeans_clustering (singletons table) (mn + i) iters = some res ∧
        kcurve.getD i 0 = compute_distortion table res) ∧
      (∀ i, i < mx + 1 - mn → ∃ res,
        hier_chain (singletons table) ((pyRange (mn + i) (mx + 1)).reverse)
          = some res ∧
        hcurve.getD i 0 = compute_distortion table res) := by
  have hSlen : (singletons table).length = table.length := by
    unfold singletons
    exact List.length_map _ _
  have hgood : GoodClusters (singletons table) := singletons_good table h4
  have hkm : ∀ idx ∈ pyRange mn (mx + 1),
      (kmeans_clustering (singletons table) idx iters).map
          (compute_distortion table) =
        some (compute_distortion table
          (kmeans_rounds (pySort (fun c => -c.total_population)
            (singletons table)) idx iters)) := by
    intro idx hidx
    obtain ⟨ha, hb⟩ := pyRange_mem.1 hidx
    rw [kmeans_clustering_eq_rounds (by omega) (by rw [hSlen]; omega)]
    rfl
  have hmapM := mapM_eq_map_of_some _ _ _ hkm
  obtain ⟨c0, hc0, hg0⟩ :=
    hierarch_success (singletons table).length (singletons table) rfl hgood
      mx (by omega)
  obtain ⟨st, hst, _, hlen, hpre, hchain⟩ :=
    hier_fold_chain table ((pyRange mn mx).reverse) c0
      [compute_distortion table c0] hg0
      (fun x hx => by
        obtain ⟨ha, _⟩ := pyRange_mem.1 (List.mem_reverse.1 hx)
        omega)
  have htslen : ((pyRange mn mx).reverse).length = mx - mn := by
    rw [List.length_reverse, pyRange_length]
  have hstlen : st.2.length = mx + 1 - mn := by
    rw [hlen, htslen]
    simp only [List.length_cons, List.length_nil]
    omega
  refine ⟨(pyRange mn (mx + 1)).map
      (fun x => compute_distortion table
        (kmeans_rounds (pySort (fun c => -c.total_population)
          (singletons table)) x iters)),
    st.2.reverse, ?_, ?_, ?_, ?_, ?_⟩
  · simp only [dist_vs_clusters]
    rw [hmapM]
    simp only [Option.bind_eq_bind, Option.some_bind]
    rw [hc0]
    simp only [Option.some_bind]
    simp only [Option.bind_eq_bind] at hst
    rw [hst]
    simp only [Option.some_bind]
    rfl
  · rw [List.length_map, pyRange_length]
  · rw [List.length_reverse, hstlen]
  · intro i hi
    refine ⟨_, kmeans_clustering_eq_rounds (by omega)
      (by rw [hSlen]; omega) iters, ?_⟩
    have hb : i < ((pyRange mn (mx + 1)).map
        (fun idx => compute_distortion table
          (kmeans_rounds (pySort (fun c => -c.total_population)
            (singletons table)) idx iters))).length := by
      rw [List.length_map, pyRange_length]
      omega
    have hb2 : i < (pyRange mn (mx + 1)).length := by
      rw [pyRange_length]
      omega
    have hidx : (pyRange mn (mx + 1)).getD i 0 = mn + i :=
      pyRange_getD mn (mx + 1) i (by omega)
    rw [List.getD_eq_getElem _ _ hb2] at hidx
    rw [List.getD_eq_getElem _ _ hb, List.getElem_map, hidx]
  · intro i hi
    have hrev : st.2.reverse.getD i 0 = st.2.getD (st.2.length - 1 - i) 0 :=
      getD_reverse st.2 0 i (by omega)
    have hp : st.2.length - 1 - i = mx - mn - i := by omega
    rw [hp] at hrev
    by_cases hcase : i = mx - mn
    · refine ⟨c0, ?_, ?_⟩
      · have hmi : mn + i = mx := by omega
        rw [hmi]
        have hone : mx + 1 - mx = 1 := by omega
        rw [pyRange_eq_range', hone]
        unfold hier_chain
        rw [List.range'_one, List.reverse_singleton, List.foldlM_cons]
        rw [hc0]
        rfl
      · rw [hrev, hcase]
        have hz : mx - mn - (mx - mn) = 0 := by omega
        rw [hz]
        rw [hpre 0 (by simp)]
        rfl
    · obtain ⟨res, hres, hval⟩ := hchain (mx - mn - i - 1) (by
        rw [htslen]
        omega)
      have hj1 : mx - mn - i - 1 + 1 = mx - mn - i := by omega
      rw [hj1] at hres
      have hidx2 : [compute_distortion table c0].length +
          (mx - mn - i - 1) = mx - mn - i := by
        simp only [List.length_cons, List.length_nil]
        omega
      rw [hidx2] at hval
      refine ⟨res, ?_, ?_⟩
      · rw [pyRange_reverse_decomp mn mx i (by omega)]
        unfold hier_chain
        rw [List.foldlM_cons]
        rw [hc0]
        simp only [Option.bind_eq_bind, Option.some_bind]
        exact hres
      · rw [hrev]
        exact hval

theorem claim_C8_witness :
    ∃ kcurve hcurve,
      dist_vs_clusters
          ([⟨0, 0, 0, 1, 0⟩, ⟨1, 1, 0, 2, 0⟩] : List DataRow) 1 2 1 =
        some [kcurve, hcurve] ∧
      kcurve.length = 2 + 1 - 1 ∧
      hcurve.length = 2 + 1 - 1 ∧
      (∀ i, i < 2 + 1 - 1 → ∃ res,
        kmeans_clustering
          (singletons ([⟨0, 0, 0, 1, 0⟩, ⟨1, 1, 0, 2, 0⟩] : List DataRow))
          (1 + i) 1 = some res ∧
        kcurve.getD i 0 =
          compute_distortion
            ([⟨0, 0, 0, 1, 0⟩, ⟨1, 1, 0, 2, 0⟩] : List DataRow) res) ∧
      (∀ i, i < 2 + 1 - 1 → ∃ res,
        hier_chain
          (singletons ([⟨0, 0, 0, 1, 0⟩, ⟨1, 1, 0, 2, 0⟩] : List DataRow))
          ((pyRange (1 + i) (2 + 1)).reverse) = some res ∧
        hcurve.getD i 0 =
          compute_distortion
            ([⟨0, 0, 0, 1, 0⟩, ⟨1, 1, 0, 2, 0⟩] : List DataRow) res) :=
  claim_C8_dist_vs_clusters_curves
    ([⟨0, 0, 0, 1, 0⟩, ⟨1, 1, 0, 2, 0⟩] : List DataRow) 1 2 1
    (by decide) (by decide) (by decide) (by decide)

/-! ### Claim C1: `fast_closest_pair` computes the minimum pair distance

The only nontrivial step is the window-3 inner loop of
`closest_pair_strip`: the two members of a globally minimal pair can sit
at most 3 apart in the vertically sorted strip.  The geometric core is
proved over ℝ below; the algorithmic part reduces to it. -/

theorem sqrt_le_of_sq (t e : ℝ) (he : 0 ≤ e) (h : t ≤ e^2) :
    Real.sqrt t ≤ e := by
  calc Real.sqrt t ≤ Real.sqrt (e^2) := Real.sqrt_le_sqrt h
  _ = |e| := Real.sqrt_sq_eq_abs e
  _ = e := abs_of_nonneg he

/-- Core packing fact, in a frame where the crowded-side endpoint of the
minimum pair sits at the origin with its side on the left (x ≤ M = mid):
with `D² = ` the smaller of the two half minima and `δ² < D²` the global
minimum realised by the pair `(0,0)–(W,h)`, the same side cannot contain
two further strip points with vertical coordinates inside the band
`[0, h]`. -/
theorem band_three_left (D δ M W h a y a' y' : ℝ)
    (hδ0 : 0 ≤ δ) (hδD : δ < D)
    (hM0 : 0 ≤ M) (hMW : M ≤ W)
    (hWh : W^2 + h^2 = δ^2)
    (hy0 : 0 ≤ y) (hyy : y ≤ y') (hyh : y' ≤ h)
    (haM : a ≤ M) (haM' : a' ≤ M)
    (hsa : (a - M)^2 ≤ D^2) (hsa' : (a' - M)^2 ≤ D^2)
    (c1 : D^2 ≤ a^2 + y^2) (c2 : D^2 ≤ a'^2 + y'^2)
    (c3 : D^2 ≤ (a - a')^2 + (y - y')^2)
    (c4 : δ^2 ≤ (a - W)^2 + (y - h)^2)
    (c5 : δ^2 ≤ (a' - W)^2 + (y' - h)^2) : False := by
  have hy'0 : 0 ≤ y' := le_trans hy0 hyy
  have hh0 : 0 ≤ h := le_trans hy'0 hyh
  have hD0 : 0 < D := lt_of_le_of_lt hδ0 hδD
  have hW0 : 0 ≤ W := le_trans hM0 hMW
  have hhδ : h ≤ δ := by
    by_contra hcon
    push_neg at hcon
    have e1 : 0 < (h - δ) * (h + δ) := mul_pos (by linarith) (by linarith)
    have e2 : (h - δ) * (h + δ) = h^2 - δ^2 := by ring
    linarith [sq_nonneg W]
  have hδ2D2 : δ^2 < D^2 := by
    have e1 : 0 < (D - δ) * (D + δ) := mul_pos (by linarith) (by linarith)
    have e2 : (D - δ) * (D + δ) = D^2 - δ^2 := by ring
    linarith
  have hy'2h2 : y'^2 ≤ h^2 := by
    have e1 : 0 ≤ (h - y') * (h + y') :=
      mul_nonneg (by linarith) (by linarith)
    have e2 : (h - y') * (h + y') = h^2 - y'^2 := by ring
    linarith
  have hvh : (y'-y)^2 ≤ h^2 := by
    have e1 : 0 ≤ (h - (y'-y)) * (h + (y'-y)) :=
      mul_nonneg (by linarith) (by linarith)
    have e2 : (h - (y'-y)) * (h + (y'-y)) = h^2 - (y'-y)^2 := by ring
    linarith
  have hvu : (y'-y)^2 ≤ y'^2 := by
    have e1 : 0 ≤ y * (2*y' - y) := mul_nonneg hy0 (by linarith)
    have e2 : y * (2*y' - y) = y'^2 - (y'-y)^2 := by ring
    linarith
  have hy2 : y^2 ≤ y'^2 := by
    have e1 : 0 ≤ (y' - y) * (y' + y) :=
      mul_nonneg (by linarith) (by linarith)
    have e2 : (y' - y) * (y' + y) = y'^2 - y^2 := by ring
    linarith
  have step1 : ∀ b yb : ℝ, 0 ≤ yb → yb ≤ h → b ≤ M →
      δ^2 ≤ (b - W)^2 + (yb - h)^2 → b ≤ 0 := by
    intro b yb hyb0 hybh hbM hc
    by_contra hpos
    push_neg at hpos
    have e1 : 0 ≤ yb * (2*h - yb) := mul_nonneg hyb0 (by linarith)
    have e2 : yb * (2*h - yb) = h^2 - (yb - h)^2 := by ring
    have h2 : W^2 ≤ (b - W)^2 := by linarith
    have h3 : 2*W ≤ b := by
      by_contra hcon
      push_neg at hcon
      have e3 : 0 < b * (2*W - b) := mul_pos hpos (by linarith)
      have e4 : b * (2*W - b) = W^2 - (b - W)^2 := by ring
      linarith
    linarith
  have ha0 : a ≤ 0 := step1 a y hy0 (le_trans hyy hyh) haM c4
  have ha'0 : a' ≤ 0 := step1 a' y' hy'0 hyh haM' c5
  have hwa : M - a ≤ D := by
    by_contra hcon
    push_neg at hcon
    have e1 : 0 < (M - a - D) * (M - a + D) :=
      mul_pos (by linarith) (by linarith)
    have e2 : (M - a - D) * (M - a + D) = (a - M)^2 - D^2 := by ring
    linarith
  have hwa' : M - a' ≤ D := by
    by_contra hcon
    push_neg at hcon
    have e1 : 0 < (M - a' - D) * (M - a' + D) :=
      mul_pos (by linarith) (by linarith)
    have e2 : (M - a' - D) * (M - a' + D) = (a' - M)^2 - D^2 := by ring
    linarith
  have hQnn : (0:ℝ) ≤ D^2 - (y' - y)^2 := by linarith [hvh, sq_nonneg W]
  set Q := Real.sqrt (D^2 - (y' - y)^2) with hQdef
  have hQ0 : 0 ≤ Q := Real.sqrt_nonneg _
  have hQ2 : Q^2 = D^2 - (y' - y)^2 := Real.sq_sqrt hQnn
  rcases le_or_lt a' a with hAB | hAB
  · -- Case A: the upper extra point is weakly left of the lower one.
    set P := Real.sqrt (D^2 - y^2) with hPdef
    have hP0 : 0 ≤ P := Real.sqrt_nonneg _
    have hP2 : P^2 = D^2 - y^2 := Real.sq_sqrt (by
      linarith [hy2, hy'2h2, sq_nonneg W])
    have hPa : P ≤ -a := sqrt_le_of_sq _ _ (by linarith) (by
      have e1 : (-a)^2 = a^2 := by ring
      linarith [c1])
    have hQa : Q ≤ a - a' := sqrt_le_of_sq _ _ (by linarith) (by
      have e1 : (y - y')^2 = (y' - y)^2 := by ring
      linarith [c3])
    have hsum : P + Q ≤ D := by linarith
    have hsq : (P+Q)^2 ≤ D^2 := by
      have e1 : 0 ≤ (P+Q) * (D - (P+Q)) :=
        mul_nonneg (by linarith) (by linarith)
      have e2 : 0 ≤ D * (D - (P+Q)) :=
        mul_nonneg (by linarith) (by linarith)
      have e3 : (P+Q) * (D - (P+Q)) = D*(P+Q) - (P+Q)^2 := by ring
      have e4 : D * (D - (P+Q)) = D^2 - D*(P+Q) := by ring
      linarith
    have e5 : (P+Q)^2 = P^2 + 2*(P*Q) + Q^2 := by ring
    have e6 : 0 ≤ P*Q := mul_nonneg hP0 hQ0
    have e7 : 0 ≤ y * (y' - y) := mul_nonneg hy0 (by linarith)
    have e8 : y * (y' - y) * 2 = y'^2 - y^2 - (y'-y)^2 := by ring
    linarith [hsq, hP2, hQ2, hy'2h2, sq_nonneg W]
  · -- Case B: the upper extra point is strictly right of the lower one.
    set P' := Real.sqrt (D^2 - y'^2) with hP'def
    have hP'0 : 0 ≤ P' := Real.sqrt_nonneg _
    have hP'2 : P'^2 = D^2 - y'^2 := Real.sq_sqrt (by
      linarith [hy'2h2, sq_nonneg W])
    have hP'a : P' ≤ -a' := sqrt_le_of_sq _ _ (by linarith) (by
      have e1 : (-a')^2 = a'^2 := by ring
      linarith [c2])
    have hQb : Q ≤ a' - a := sqrt_le_of_sq _ _ (by linarith) (by
      have e1 : (a' - a)^2 = (a - a')^2 := by ring
      have e2 : (y - y')^2 = (y' - y)^2 := by ring
      linarith [c3])
    have hchain1 : Q + P' ≤ D := by linarith
    have hspade : D^2 ≤ (y'-y)^2 + y'^2 := by
      have e1 : 0 ≤ (Q+P') * (D - (Q+P')) :=
        mul_nonneg (by linarith) (by linarith)
      have e2 : 0 ≤ D * (D - (Q+P')) :=
        mul_nonneg (by linarith) (by linarith)
      have e3 : (Q+P') * (D - (Q+P')) = D*(Q+P') - (Q+P')^2 := by ring
      have e4 : D * (D - (Q+P')) = D^2 - D*(Q+P') := by ring
      have e5 : (Q+P')^2 = Q^2 + 2*(Q*P') + P'^2 := by ring
      have e6 : 0 ≤ Q*P' := mul_nonneg hQ0 hP'0
      linarith [hQ2, hP'2]
    set R := Real.sqrt (δ^2 - (h - y')^2) with hRdef
    have hR0 : 0 ≤ R := Real.sqrt_nonneg _
    have hR2 : R^2 = δ^2 - (h - y')^2 := Real.sq_sqrt (by
      have e1 : 0 ≤ y' * (2*h - y') := mul_nonneg hy'0 (by linarith)
      have e2 : y' * (2*h - y') = h^2 - (h - y')^2 := by ring
      linarith [sq_nonneg W])
    have hRa' : R ≤ W - a' := sqrt_le_of_sq _ _ (by linarith) (by
      have e1 : (W - a')^2 = (a' - W)^2 := by ring
      have e2 : (y' - h)^2 = (h - y')^2 := by ring
      linarith [c5])
    have hchain2 : Q + R ≤ D + W := by linarith
    have hu2 : D^2 ≤ 2*y'^2 := by linarith [hspade, hvu]
    have t7 : y'^2 ≤ h*y' := by
      have e1 : 0 ≤ y' * (h - y') := mul_nonneg hy'0 (by linarith)
      have e2 : y' * (h - y') = h*y' - y'^2 := by ring
      linarith
    have hRW : W^2 + y'^2 ≤ R^2 := by
      have e1 : (h - y')^2 = h^2 - 2*(h*y') + y'^2 := by ring
      linarith [hR2, hWh, t7]
    have k1 : Q^2*(W^2 + y'^2) ≤ Q^2*R^2 :=
      mul_le_mul_of_nonneg_left hRW (sq_nonneg Q)
    have k2 : (y'-y)^2*W^2 ≤ y'^2*W^2 :=
      mul_le_mul_of_nonneg_right hvu (sq_nonneg W)
    have k3 : D^2 - δ^2 ≤ Q^2 - W^2 := by linarith [hQ2, hWh, hvh]
    have k4 : (D^2/2)*(D^2-δ^2) ≤ y'^2*(Q^2-W^2) :=
      mul_le_mul (by linarith) k3 (by linarith) (sq_nonneg y')
    have t3 : Q^2*W^2 = D^2*W^2 - (y'-y)^2*W^2 := by rw [hQ2]; ring
    have t5 : Q^2*y'^2 = D^2*y'^2 - (y'-y)^2*y'^2 := by rw [hQ2]; ring
    have t6 : y'^2*(Q^2 - W^2) =
        D^2*y'^2 - (y'-y)^2*y'^2 - y'^2*W^2 := by rw [hQ2]; ring
    have hE : 0 < (D^2/2)*(D^2-δ^2) :=
      mul_pos (by positivity) (by linarith [hδ2D2])
    have t9 : Q^2*(W^2 + y'^2) = Q^2*W^2 + Q^2*y'^2 := by ring
    have key : D^2*W^2 < Q^2*R^2 := by linarith [k1, k2, k4, t3, t5, t6, t9]
    have hQRpos : D*W < Q*R := by
      by_contra hcon
      push_neg at hcon
      have p1 : 0 ≤ (D*W - Q*R) * (Q*R) :=
        mul_nonneg (by linarith) (mul_nonneg hQ0 hR0)
      have p2 : 0 ≤ (D*W) * (D*W - Q*R) :=
        mul_nonneg (mul_nonneg (le_of_lt hD0) hW0) (by linarith)
      have e1 : (D*W - Q*R) * (Q*R) = D*W*(Q*R) - Q^2*R^2 := by ring
      have e2 : (D*W) * (D*W - Q*R) = D^2*W^2 - D*W*(Q*R) := by ring
      linarith [key]
    have t8 : (h - y')^2 = h^2 - 2*(h*y') + y'^2 := by ring
    have hsum2 : D^2 + W^2 ≤ Q^2 + R^2 := by
      linarith [hQ2, hR2, hWh, hvu, t7, t8]
    have hfinal : (D+W)^2 < (Q+R)^2 := by
      have e1 : (Q+R)^2 = Q^2 + 2*(Q*R) + R^2 := by ring
      have e2 : (D+W)^2 = D^2 + 2*(D*W) + W^2 := by ring
      linarith [hsum2, hQRpos]
    have p1 : 0 ≤ (Q+R) * ((D+W) - (Q+R)) :=
      mul_nonneg (by linarith) (by linarith)
    have p2 : 0 ≤ (D+W) * ((D+W) - (Q+R)) :=
      mul_nonneg (by linarith) (by linarith)
    have e1 : (Q+R) * ((D+W) - (Q+R)) = (Q+R)*(D+W) - (Q+R)^2 := by ring
    have e2 : (D+W) * ((D+W) - (Q+R)) = (D+W)^2 - (Q+R)*(D+W) := by ring
    linarith [hfinal]

/-- The packing fact transported to cluster coordinates: `A` is the
endpoint of the globally minimal pair sitting on the crowded side of the
dividing line, `B` the other endpoint, and `z`, `z'` two further
clusters of the same side, inside the strip of squared half-width `d2`
and vertically inside the band spanned by `A` and `B`.  `σx` orients the
crowded side (`1` = left of `mid`), `σy` the band (`1` = `A` at the
bottom). -/
theorem crowded_side_impossible (d2 δ2 mid σx σy : ℚ)
    (hδ2nn : 0 ≤ δ2) (hlt : δ2 < d2)
    (A B z z' : Cluster)
    (hσx : σx = 1 ∨ σx = -1) (hσy : σy = 1 ∨ σy = -1)
    (hAB : A.distSq B = δ2)
    (hzz : d2 ≤ z.distSq z')
    (hzA : d2 ≤ z.distSq A) (hzA' : d2 ≤ z'.distSq A)
    (hzB : δ2 ≤ z.distSq B) (hzB' : δ2 ≤ z'.distSq B)
    (hsz : (z.horiz_center - mid)^2 ≤ d2)
    (hsz' : (z'.horiz_center - mid)^2 ≤ d2)
    (hM0 : 0 ≤ σx * (mid - A.horiz_center))
    (hMW : σx * (mid - A.horiz_center) ≤
      σx * (B.horiz_center - A.horiz_center))
    (haM : σx * (z.horiz_center - A.horiz_center) ≤
      σx * (mid - A.horiz_center))
    (haM' : σx * (z'.horiz_center - A.horiz_center) ≤
      σx * (mid - A.horiz_center))
    (hy0 : 0 ≤ σy * (z.vert_center - A.vert_center))
    (hyy : σy * (z.vert_center - A.vert_center) ≤
      σy * (z'.vert_center - A.vert_center))
    (hyh : σy * (z'.vert_center - A.vert_center) ≤
      σy * (B.vert_center - A.vert_center)) :
    False := by
  have hσx2 : ((σx:ℝ))^2 = 1 := by
    rcases hσx with h | h <;> rw [h] <;> norm_num
  have hσy2 : ((σy:ℝ))^2 = 1 := by
    rcases hσy with h | h <;> rw [h] <;> norm_num
  have sqx : ∀ s t : ℝ, ((σx:ℝ)*s - (σx:ℝ)*t)^2 = (s - t)^2 := by
    intro s t
    have e : (σx:ℝ)*s - (σx:ℝ)*t = (σx:ℝ)*(s - t) := by ring
    rw [e, mul_pow, hσx2, one_mul]
  have sqy : ∀ s t : ℝ, ((σy:ℝ)*s - (σy:ℝ)*t)^2 = (s - t)^2 := by
    intro s t
    have e : (σy:ℝ)*s - (σy:ℝ)*t = (σy:ℝ)*(s - t) := by ring
    rw [e, mul_pow, hσy2, one_mul]
  have sqx1 : ∀ t : ℝ, ((σx:ℝ)*t)^2 = t^2 := by
    intro t
    rw [mul_pow, hσx2, one_mul]
  have sqy1 : ∀ t : ℝ, ((σy:ℝ)*t)^2 = t^2 := by
    intro t
    rw [mul_pow, hσy2, one_mul]
  have hδcast : Real.sqrt ((δ2:ℝ))^2 = (δ2:ℝ) :=
    Real.sq_sqrt (by exact_mod_cast hδ2nn)
  have hdcast : Real.sqrt ((d2:ℝ))^2 = (d2:ℝ) :=
    Real.sq_sqrt (by exact_mod_cast (le_of_lt (lt_of_le_of_lt hδ2nn hlt)))
  unfold Cluster.distSq at hAB hzz hzA hzA' hzB hzB'
  refine band_three_left (Real.sqrt ((d2:ℝ))) (Real.sqrt ((δ2:ℝ)))
    ((σx:ℝ) * ((mid:ℝ) - (A.horiz_center:ℝ)))
    ((σx:ℝ) * ((B.horiz_center:ℝ) - (A.horiz_center:ℝ)))
    ((σy:ℝ) * ((B.vert_center:ℝ) - (A.vert_center:ℝ)))
    ((σx:ℝ) * ((z.horiz_center:ℝ) - (A.horiz_center:ℝ)))
    ((σy:ℝ) * ((z.vert_center:ℝ) - (A.vert_center:ℝ)))
    ((σx:ℝ) * ((z'.horiz_center:ℝ) - (A.horiz_center:ℝ)))
    ((σy:ℝ) * ((z'.vert_center:ℝ) - (A.vert_center:ℝ)))
    (Real.sqrt_nonneg _)
    (Real.sqrt_lt_sqrt (by exact_mod_cast hδ2nn) (by exact_mod_cast hlt))
    (by exact_mod_cast hM0)
    (by exact_mod_cast hMW)
    ?_ (by exact_mod_cast hy0) (by exact_mod_cast hyy)
    (by exact_mod_cast hyh)
    (by exact_mod_cast haM) (by exact_mod_cast haM')
    ?_ ?_ ?_ ?_ ?_ ?_ ?_
  · rw [sqx1, sqy1, hδcast]
    have h3 : ((B.horiz_center - A.horiz_center)^2 +
        (B.vert_center - A.vert_center)^2 : ℚ) = δ2 := by
      rw [← hAB]
      ring
    exact_mod_cast h3
  · have e : (σx:ℝ) * ((z.horiz_center:ℝ) - (A.horiz_center:ℝ)) -
        (σx:ℝ) * ((mid:ℝ) - (A.horiz_center:ℝ)) =
        (σx:ℝ) * ((z.horiz_center:ℝ)) - (σx:ℝ) * ((mid:ℝ)) := by ring
    rw [e, sqx, hdcast]
    exact_mod_cast hsz
  · have e : (σx:ℝ) * ((z'.horiz_center:ℝ) - (A.horiz_center:ℝ)) -
        (σx:ℝ) * ((mid:ℝ) - (A.horiz_center:ℝ)) =
        (σx:ℝ) * ((z'.horiz_center:ℝ)) - (σx:ℝ) * ((mid:ℝ)) := by ring
    rw [e, sqx, hdcast]
    exact_mod_cast hsz'
  · rw [hdcast, sqx1, sqy1]
    exact_mod_cast hzA
  · rw [hdcast, sqx1, sqy1]
    exact_mod_cast hzA'
  · have e1 : (σx:ℝ) * ((z.horiz_center:ℝ) - (A.horiz_center:ℝ)) -
        (σx:ℝ) * ((z'.horiz_center:ℝ) - (A.horiz_center:ℝ)) =
        (σx:ℝ) * ((z.horiz_center:ℝ)) -
        (σx:ℝ) * ((z'.horiz_center:ℝ)) := by ring
    have e2 : (σy:ℝ) * ((z.vert_center:ℝ) - (A.vert_center:ℝ)) -
        (σy:ℝ) * ((z'.vert_center:ℝ) - (A.vert_center:ℝ)) =
        (σy:ℝ) * ((z.vert_center:ℝ)) -
        (σy:ℝ) * ((z'.vert_center:ℝ)) := by ring
    rw [e1, e2, sqx, sqy, hdcast]
    exact_mod_cast hzz
  · have e1 : (σx:ℝ) * ((z.horiz_center:ℝ) - (A.horiz_center:ℝ)) -
        (σx:ℝ) * ((B.horiz_center:ℝ) - (A.horiz_center:ℝ)) =
        (σx:ℝ) * ((z.horiz_center:ℝ)) -
        (σx:ℝ) * ((B.horiz_center:ℝ)) := by ring
    have e2 : (σy:ℝ) * ((z.vert_center:ℝ) - (A.vert_center:ℝ)) -
        (σy:ℝ) * ((B.vert_center:ℝ) - (A.vert_center:ℝ)) =
        (σy:ℝ) * ((z.vert_center:ℝ)) -
        (σy:ℝ) * ((B.vert_center:ℝ)) := by ring
    rw [e1, e2, sqx, sqy, hδcast]
    exact_mod_cast hzB
  · have e1 : (σx:ℝ) * ((z'.horiz_center:ℝ) - (A.horiz_center:ℝ)) -
        (σx:ℝ) * ((B.horiz_center:ℝ) - (A.horiz_center:ℝ)) =
        (σx:ℝ) * ((z'.horiz_center:ℝ)) -
        (σx:ℝ) * ((B.horiz_center:ℝ)) := by ring
    have e2 : (σy:ℝ) * ((z'.vert_center:ℝ) - (A.vert_center:ℝ)) -
        (σy:ℝ) * ((B.vert_center:ℝ) - (A.vert_center:ℝ)) =
        (σy:ℝ) * ((z'.vert_center:ℝ)) -
        (σy:ℝ) * ((B.vert_center:ℝ)) := by ring
    rw [e1, e2, sqx, sqy, hδcast]
    exact_mod_cast hzB'

theorem Cluster.distSq_nonneg (a b : Cluster) : 0 ≤ a.distSq b := by
  unfold Cluster.distSq
  positivity

theorem pairwise_le_getD (f : Cluster → ℚ) {l : List Cluster}
    (hs : l.Pairwise (fun a b => f a ≤ f b)) {i j : ℕ} (hij : i ≤ j)
    (hj : j < l.length) :
    f (l.getD i default) ≤ f (l.getD j default) := by
  rcases Nat.eq_or_lt_of_le hij with rfl | hlt
  · exact le_refl _
  · rw [List.getD_eq_getElem _ _ (lt_trans hlt hj),
      List.getD_eq_getElem _ _ hj]
    exact List.pairwise_iff_getElem.1 hs i j _ _ hlt

theorem getD_mem {l : List Cluster} {i : ℕ} (h : i < l.length) :
    l.getD i default ∈ l := by
  rw [List.getD_eq_getElem _ _ h]
  exact List.getElem_mem _

theorem indexOf_getD {l : List Cluster} (hnd : l.Nodup) {i : ℕ}
    (h : i < l.length) : l.indexOf (l.getD i default) = i := by
  have hmem : l.getD i default ∈ l := getD_mem h
  have hlt : l.indexOf (l.getD i default) < l.length :=
    List.indexOf_lt_length.2 hmem
  by_contra hne
  exact nodup_getD_ne hnd hlt h hne (getD_indexOf hmem)

/-- Window bound for the strip scan: the two members of a globally
minimal pair that crosses the dividing line sit at most 3 apart in the
vertically sorted strip.  `d2` is the smaller of the two half minima
(same-half pairs are at least `d2` apart), `δ2 < d2` the global minimum,
realised by the pair at list indices `p < m ≤ q`. -/
theorem strip_window_three
    (l : List Cluster) (hnd : l.Nodup)
    (hsort : l.Pairwise (fun a b => a.horiz_center ≤ b.horiz_center))
    (m : ℕ) (mid d2 δ2 : ℚ)
    (hm1 : 1 ≤ m) (hmlt : m < l.length)
    (hmid1 : (l.getD (m-1) default).horiz_center ≤ mid)
    (hmid2 : mid ≤ (l.getD m default).horiz_center)
    (hδlt : δ2 < d2)
    (hLd : ∀ i j, i < m → j < m → i ≠ j →
      d2 ≤ (l.getD i default).distSq (l.getD j default))
    (hRd : ∀ i j, m ≤ i → m ≤ j → i < l.length → j < l.length → i ≠ j →
      d2 ≤ (l.getD i default).distSq (l.getD j default))
    (hG : ∀ i j, i < l.length → j < l.length → i ≠ j →
      δ2 ≤ (l.getD i default).distSq (l.getD j default))
    (p q : ℕ) (hp : p < m) (hmq : m ≤ q) (hq : q < l.length)
    (hpq : (l.getD p default).distSq (l.getD q default) = δ2)
    (u v : ℕ) (huv : u < v)
    (hv : v < (strip_list l mid (d2:WithTop ℚ)).length)
    (hpair :
      ((strip_list l mid (d2:WithTop ℚ)).getD u default = l.getD p default ∧
       (strip_list l mid (d2:WithTop ℚ)).getD v default =
         l.getD q default) ∨
      ((strip_list l mid (d2:WithTop ℚ)).getD u default = l.getD q default ∧
       (strip_list l mid (d2:WithTop ℚ)).getD v default =
         l.getD p default)) :
    v ≤ u + 3 := by
  by_contra hcon
  push_neg at hcon
  set s := strip_list l mid (d2:WithTop ℚ) with hs
  have hsnd : s.Nodup := strip_list_nodup hnd
  have hssorted : s.Pairwise (fun a b => a.vert_center ≤ b.vert_center) := by
    rw [hs]
    exact strip_list_sorted l mid (d2:WithTop ℚ)
  set lp := l.getD p default with hlp
  set lq := l.getD q default with hlq
  have hδnn : 0 ≤ δ2 := hpq ▸ Cluster.distSq_nonneg _ _
  have hplen : p < l.length := lt_of_lt_of_le hp (le_of_lt hmlt)
  have hmem : ∀ w, w < s.length → s.getD w default ∈ l ∧
      ((s.getD w default).horiz_center - mid)^2 ≤ d2 := by
    intro w hw
    have h1 : s.getD w default ∈ s := getD_mem hw
    rw [hs] at h1
    have h2 := strip_list_mem.1 h1
    exact ⟨h2.1, by exact_mod_cast h2.2⟩
  have hvert : ∀ w w', w ≤ w' → w' < s.length →
      (s.getD w default).vert_center ≤ (s.getD w' default).vert_center :=
    fun w w' hww hw' => pairwise_le_getD _ hssorted hww hw'
  have hneq : ∀ w w', w < s.length → w' < s.length → w ≠ w' →
      s.getD w default ≠ s.getD w' default :=
    fun w w' hw hw' hne => nodup_getD_ne hsnd hw hw' hne
  have hplp : l.indexOf lp = p := indexOf_getD hnd hplen
  have hqlq : l.indexOf lq = q := indexOf_getD hnd hq
  have hsame : ∀ c c', c ∈ l → c' ∈ l → c ≠ c' →
      ((l.indexOf c < m) ↔ (l.indexOf c' < m)) → d2 ≤ c.distSq c' := by
    intro c c' hc hc' hne hiff
    have hci : l.indexOf c < l.length := List.indexOf_lt_length.2 hc
    have hci' : l.indexOf c' < l.length := List.indexOf_lt_length.2 hc'
    have hcg : l.getD (l.indexOf c) default = c := getD_indexOf hc
    have hcg' : l.getD (l.indexOf c') default = c' := getD_indexOf hc'
    have hne2 : l.indexOf c ≠ l.indexOf c' := by
      intro he
      rw [← hcg, ← hcg', he] at hne
      exact hne rfl
    by_cases hside : l.indexOf c < m
    · have h := hLd _ _ hside (hiff.1 hside) hne2
      rwa [hcg, hcg'] at h
    · have hside' : ¬ l.indexOf c' < m := fun hcl => hside (hiff.2 hcl)
      have h := hRd _ _ (le_of_not_lt hside) (le_of_not_lt hside')
        hci hci' hne2
      rwa [hcg, hcg'] at h
  have hglob : ∀ c c', c ∈ l → c' ∈ l → c ≠ c' → δ2 ≤ c.distSq c' := by
    intro c c' hc hc' hne
    have hci : l.indexOf c < l.length := List.indexOf_lt_length.2 hc
    have hci' : l.indexOf c' < l.length := List.indexOf_lt_length.2 hc'
    have hcg : l.getD (l.indexOf c) default = c := getD_indexOf hc
    have hcg' : l.getD (l.indexOf c') default = c' := getD_indexOf hc'
    have hne2 : l.indexOf c ≠ l.indexOf c' := by
      intro he
      rw [← hcg, ← hcg', he] at hne
      exact hne rfl
    have h := hG _ _ hci hci' hne2
    rwa [hcg, hcg'] at h
  have hsideL : ∀ c, c ∈ l → l.indexOf c < m → c.horiz_center ≤ mid := by
    intro c hc h
    have hcg : l.getD (l.indexOf c) default = c := getD_indexOf hc
    have h2 : (l.getD (l.indexOf c) default).horiz_center ≤
        (l.getD (m-1) default).horiz_center :=
      pairwise_le_getD _ hsort (by omega) (by omega)
    rw [hcg] at h2
    linarith
  have hsideR : ∀ c, c ∈ l → m ≤ l.indexOf c → mid ≤ c.horiz_center := by
    intro c hc h
    have hci : l.indexOf c < l.length := List.indexOf_lt_length.2 hc
    have hcg : l.getD (l.indexOf c) default = c := getD_indexOf hc
    have h2 : (l.getD m default).horiz_center ≤
        (l.getD (l.indexOf c) default).horiz_center :=
      pairwise_le_getD _ hsort h hci
    rw [hcg] at h2
    linarith
  have hlpx : lp.horiz_center ≤ mid := hsideL lp (getD_mem hplen) (by
    rw [hplp]; exact hp)
  have hlqx : mid ≤ lq.horiz_center := hsideR lq (getD_mem hq) (by
    rw [hqlq]; exact hmq)
  have hlplq : lp ≠ lq := nodup_getD_ne hnd hplen hq (by omega)
  have main : ∀ w1 w2 : ℕ, u < w1 → w1 < w2 → w2 < v →
      ((l.indexOf (s.getD w1 default) < m) ↔
       (l.indexOf (s.getD w2 default) < m)) → False := by
    intro w1 w2 hw1 hw12 hw2v hsides
    have hw1s : w1 < s.length := by omega
    have hw2s : w2 < s.length := by omega
    have hus : u < s.length := by omega
    set za := s.getD w1 default with hza
    set zb := s.getD w2 default with hzb
    obtain ⟨hzal, hzastrip⟩ := hmem w1 hw1s
    obtain ⟨hzbl, hzbstrip⟩ := hmem w2 hw2s
    have hzab : za ≠ zb := hneq w1 w2 hw1s hw2s (by omega)
    have hzau : za ≠ s.getD u default := hneq w1 u hw1s hus (by omega)
    have hzav : za ≠ s.getD v default := hneq w1 v hw1s hv (by omega)
    have hzbu : zb ≠ s.getD u default := hneq w2 u hw2s hus (by omega)
    have hzbv : zb ≠ s.getD v default := hneq w2 v hw2s hv (by omega)
    have hbandau : (s.getD u default).vert_center ≤ za.vert_center :=
      hvert u w1 (by omega) hw1s
    have hbandab : za.vert_center ≤ zb.vert_center :=
      hvert w1 w2 (by omega) hw2s
    have hbandbv : zb.vert_center ≤ (s.getD v default).vert_center :=
      hvert w2 v (by omega) hv
    have hd_ab : d2 ≤ za.distSq zb := hsame za zb hzal hzbl hzab hsides
    have hzalp : za ≠ lp := by
      rcases hpair with ⟨h1, _⟩ | ⟨_, h2⟩
      · rw [← h1]; exact hzau
      · rw [← h2]; exact hzav
    have hzalq : za ≠ lq := by
      rcases hpair with ⟨_, h2⟩ | ⟨h1, _⟩
      · rw [← h2]; exact hzav
      · rw [← h1]; exact hzau
    have hzblp : zb ≠ lp := by
      rcases hpair with ⟨h1, _⟩ | ⟨_, h2⟩
      · rw [← h1]; exact hzbu
      · rw [← h2]; exact hzbv
    have hzblq : zb ≠ lq := by
      rcases hpair with ⟨_, h2⟩ | ⟨h1, _⟩
      · rw [← h2]; exact hzbv
      · rw [← h1]; exact hzbu
    by_cases hcl : l.indexOf za < m
    · -- crowded left half: anchor lp
      have hcl2 : l.indexOf zb < m := hsides.1 hcl
      have hzaA : d2 ≤ za.distSq lp :=
        hsame za lp hzal (getD_mem hplen) hzalp
          (by rw [hplp]; exact ⟨fun _ => hp, fun _ => hcl⟩)
      have hzbA : d2 ≤ zb.distSq lp :=
        hsame zb lp hzbl (getD_mem hplen) hzblp
          (by rw [hplp]; exact ⟨fun _ => hp, fun _ => hcl2⟩)
      have hzaB : δ2 ≤ za.distSq lq := hglob za lq hzal (getD_mem hq) hzalq
      have hzbB : δ2 ≤ zb.distSq lq := hglob zb lq hzbl (getD_mem hq) hzblq
      have hzax : za.horiz_center ≤ mid := hsideL za hzal hcl
      have hzbx : zb.horiz_center ≤ mid := hsideL zb hzbl hcl2
      rcases hpair with ⟨h1, h2⟩ | ⟨h1, h2⟩
      · -- anchor lp at the bottom of the band
        exact crowded_side_impossible d2 δ2 mid 1 1 hδnn hδlt
          lp lq za zb (Or.inl rfl) (Or.inl rfl) hpq
          hd_ab hzaA hzbA hzaB hzbB hzastrip hzbstrip
          (by linarith) (by linarith) (by linarith) (by linarith)
          (by rw [h1] at hbandau; linarith) (by linarith)
          (by rw [h2] at hbandbv; linarith)
      · -- anchor lp at the top of the band
        exact crowded_side_impossible d2 δ2 mid 1 (-1) hδnn hδlt
          lp lq zb za (Or.inl rfl) (Or.inr rfl) hpq
          (by rw [Cluster.distSq_comm]; exact hd_ab) hzbA hzaA hzbB hzaB
          hzbstrip hzastrip
          (by linarith) (by linarith) (by linarith) (by linarith)
          (by rw [h2] at hbandbv; linarith) (by linarith)
          (by rw [h1] at hbandau; linarith)
    · -- crowded right half: anchor lq
      have hcl2 : ¬ l.indexOf zb < m := fun hx => hcl (hsides.2 hx)
      have hzaA : d2 ≤ za.distSq lq :=
        hsame za lq hzal (getD_mem hq) hzalq
          (by rw [hqlq]; exact ⟨fun h => absurd h hcl, fun h => absurd h (by omega)⟩)
      have hzbA : d2 ≤ zb.distSq lq :=
        hsame zb lq hzbl (getD_mem hq) hzblq
          (by rw [hqlq]; exact ⟨fun h => absurd h hcl2, fun h => absurd h (by omega)⟩)
      have hzaB : δ2 ≤ za.distSq lp := hglob za lp hzal (getD_mem hplen) hzalp
      have hzbB : δ2 ≤ zb.distSq lp := hglob zb lp hzbl (getD_mem hplen) hzblp
      have hzax : mid ≤ za.horiz_center := hsideR za hzal (le_of_not_lt hcl)
      have hzbx : mid ≤ zb.horiz_center := hsideR zb hzbl (le_of_not_lt hcl2)
      have hqp : lq.distSq lp = δ2 := by rw [Cluster.distSq_comm]; exact hpq
      rcases hpair with ⟨h1, h2⟩ | ⟨h1, h2⟩
      · -- anchor lq at the top of the band
        exact crowded_side_impossible d2 δ2 mid (-1) (-1) hδnn hδlt
          lq lp zb za (Or.inr rfl) (Or.inr rfl) hqp
          (by rw [Cluster.distSq_comm]; exact hd_ab) hzbA hzaA hzbB hzaB
          hzbstrip hzastrip
          (by linarith) (by linarith) (by linarith) (by linarith)
          (by rw [h2] at hbandbv; linarith) (by linarith)
          (by rw [h1] at hbandau; linarith)
      · -- anchor lq at the bottom of the band
        exact crowded_side_impossible d2 δ2 mid (-1) 1 hδnn hδlt
          lq lp za zb (Or.inr rfl) (Or.inl rfl) hqp
          hd_ab hzaA hzbA hzaB hzbB hzastrip hzbstrip
          (by linarith) (by linarith) (by linarith) (by linarith)
          (by rw [h1] at hbandau; linarith) (by linarith)
          (by rw [h2] at hbandbv; linarith)
  have pig : ∃ w1 w2 : ℕ, u < w1 ∧ w1 < w2 ∧ w2 < v ∧
      ((l.indexOf (s.getD w1 default) < m) ↔
       (l.indexOf (s.getD w2 default) < m)) := by
    by_cases b1 : l.indexOf (s.getD (u+1) default) < m
    · by_cases b2 : l.indexOf (s.getD (u+2) default) < m
      · exact ⟨u+1, u+2, by omega, by omega, by omega, iff_of_true b1 b2⟩
      · by_cases b3 : l.indexOf (s.getD (u+3) default) < m
        · exact ⟨u+1, u+3, by omega, by omega, by omega, iff_of_true b1 b3⟩
        · exact ⟨u+2, u+3, by omega, by omega, by omega, iff_of_false b2 b3⟩
    · by_cases b2 : l.indexOf (s.getD (u+2) default) < m
      · by_cases b3 : l.indexOf (s.getD (u+3) default) < m
        · exact ⟨u+2, u+3, by omega, by omega, by omega, iff_of_true b2 b3⟩
        · exact ⟨u+1, u+3, by omega, by omega, by omega, iff_of_false b1 b3⟩
      · exact ⟨u+1, u+2, by omega, by omega, by omega, iff_of_false b1 b2⟩
  obtain ⟨w1, w2, hw1, hw12, hw2v, hsides⟩ := pig
  exact main w1 w2 hw1 hw12 hw2v hsides

theorem sq_le_sq_between (x lo hi : ℚ) (h1 : lo ≤ x) (h2 : x ≤ hi) :
    (x - lo)^2 ≤ (hi - lo)^2 ∧ (hi - x)^2 ≤ (hi - lo)^2 := by
  constructor
  · have e1 : 0 ≤ (hi - x) * ((x - lo) + (hi - lo)) :=
      mul_nonneg (by linarith) (by linarith)
    have e2 : (hi - x) * ((x - lo) + (hi - lo)) =
        (hi - lo)^2 - (x - lo)^2 := by ring
    linarith
  · have e1 : 0 ≤ (x - lo) * ((hi - x) + (hi - lo)) :=
      mul_nonneg (by linarith) (by linarith)
    have e2 : (x - lo) * ((hi - x) + (hi - lo)) =
        (hi - lo)^2 - (hi - x)^2 := by ring
    linarith

/-- `fast_closest_pair` computes exactly the minimum pairwise (squared)
center distance on its documented inputs: sorted by horizontal center,
with pairwise-distinct clusters (Python object identity). -/
theorem fast_fst_eq :
    ∀ (n : ℕ) (l : List Cluster), l.length = n → l.Nodup →
      l.Pairwise (fun a b => a.horiz_center ≤ b.horiz_center) →
    (fast_closest_pair l).1 = min_pair_distSq l := by
  intro n
  induction n using Nat.strong_induction_on with
  | _ n ih =>
    intro l hlen hnd hsort
    by_cases h3 : l.length ≤ 3
    · rw [fast_closest_pair]
      simp only [h3, if_true]
      exact slow_fst_eq l
    · rw [fast_closest_pair]
      simp only [h3, if_false]
      have h4 : 4 ≤ l.length := by omega
      set m := l.length / 2 with hm
      have hm2 : 2 ≤ m := by omega
      have hmn : m + 2 ≤ l.length := by omega
      have htl : (l.take m).length = m := by
        rw [List.length_take]
        omega
      have hdl : (l.drop m).length = l.length - m := by
        rw [List.length_drop]
      have hL : (fast_closest_pair (l.take m)).1 =
          min_pair_distSq (l.take m) :=
        ih m (by omega) (l.take m) htl (hnd.sublist (List.take_sublist m l))
          (hsort.sublist (List.take_sublist m l))
      have hR : (fast_closest_pair (l.drop m)).1 =
          min_pair_distSq (l.drop m) :=
        ih (l.length - m) (by omega) (l.drop m) hdl
          (hnd.sublist (List.drop_sublist m l))
          (hsort.sublist (List.drop_sublist m l))
      obtain ⟨i1, j1, hi1, hj1, hij1, hd1, ha1, hb1⟩ :=
        fast_valid_pair m (l.take m) htl
          (hnd.sublist (List.take_sublist m l)) (by omega)
      obtain ⟨i2, j2, hi2, hj2, hij2, hd2v, ha2, hb2⟩ :=
        fast_valid_pair (l.length - m) (l.drop m) hdl
          (hnd.sublist (List.drop_sublist m l)) (by omega)
      rw [htl] at hi1 hj1
      rw [hdl] at hi2 hj2
      set dl := fast_closest_pair (l.take m) with hdldef
      set dr := fast_closest_pair (l.drop m) with hdrdef
      set dt : CPTriple := if dl.1 ≤ dr.1 then dl
        else (dr.1, dr.2.1 + (m : ℤ), dr.2.2 + (m : ℤ)) with hdt
      have hdt_le_l : dt.1 ≤ dl.1 := by
        rw [hdt]
        split
        · exact le_refl _
        · exact le_of_not_le (by assumption)
      have hdt_le_r : dt.1 ≤ dr.1 := by
        rw [hdt]
        split
        · assumption
        · exact le_refl _
      have hdtv : ∃ iT jT, iT < l.length ∧ jT < l.length ∧ iT ≠ jT ∧
          dt.1 = pdW l iT jT := by
        rw [hdt]
        split
        · exact ⟨i1, j1, by omega, by omega, by omega, by
            rw [hd1, pdW_take hi1 hj1]⟩
        · refine ⟨m + i2, m + j2, by omega, by omega, by omega, ?_⟩
          show dr.1 = _
          rw [hd2v, pdW_drop (by omega) (by omega)]
      have hmin_le_dt : min_pair_distSq l ≤ dt.1 := by
        obtain ⟨iT, jT, hiT, hjT, hTne, hTeq⟩ := hdtv
        rw [hTeq]
        exact min_pair_distSq_le hiT hjT hTne
      set mid := (1 / 2 : ℚ) * ((l.getD (m - 1) default).horiz_center +
        (l.getD m default).horiz_center) with hmid
      set ds := closest_pair_strip l mid dt.1 with hds
      have hmin_le_ds : min_pair_distSq l ≤ ds.1 := by
        rcases closest_pair_strip_valid l mid dt.1 with hinit |
          ⟨iS, jS, hiS, hjS, hijS, heS⟩
        · rw [hds, hinit]
          exact le_top
        · rw [hds, heS]
          set s := strip_list l mid dt.1 with hsdef
          have hsnd : s.Nodup := strip_list_nodup hnd
          have haMem : s.getD iS default ∈ s := getD_mem hiS
          have hbMem : s.getD jS default ∈ s := getD_mem hjS
          have haL : s.getD iS default ∈ l := by
            rw [hsdef] at haMem
            exact (strip_list_mem.1 haMem).1
          have hbL : s.getD jS default ∈ l := by
            rw [hsdef] at hbMem
            exact (strip_list_mem.1 hbMem).1
          have hne : s.getD iS default ≠ s.getD jS default :=
            nodup_getD_ne hsnd hiS hjS hijS
          have hiAlt : l.indexOf (s.getD iS default) < l.length :=
            List.indexOf_lt_length.2 haL
          have hiBlt : l.indexOf (s.getD jS default) < l.length :=
            List.indexOf_lt_length.2 hbL
          have hABne : l.indexOf (s.getD iS default) ≠
              l.indexOf (s.getD jS default) := by
            intro hc
            exact hne ((List.indexOf_inj haL hbL).1 hc)
          have hpd : pdW l (l.indexOf (s.getD iS default))
              (l.indexOf (s.getD jS default)) = pdW s iS jS := by
            unfold pdW
            rw [getD_indexOf haL, getD_indexOf hbL]
          show min_pair_distSq l ≤ pdW s iS jS
          rw [← hpd]
          exact min_pair_distSq_le hiAlt hiBlt hABne
      have hup : dt.1 ≤ min_pair_distSq l ∨ ds.1 ≤ min_pair_distSq l := by
        rcases min_pair_distSq_cases l with htop |
          ⟨p0, q0, hp0, hq0, hpq0ne, hmineq0⟩
        · left
          rw [htop]
          exact le_top
        · obtain ⟨p, q, hplt, hqlt2, hpltq, hmineq2⟩ :
              ∃ p q, p < l.length ∧ q < l.length ∧ p < q ∧
                min_pair_distSq l = pdW l p q := by
            rcases lt_or_gt_of_ne hpq0ne with h | h
            · exact ⟨p0, q0, hp0, hq0, h, hmineq0⟩
            · exact ⟨q0, p0, hq0, hp0, h, by rw [hmineq0, pdW_comm]⟩
          by_cases hcase1 : q < m
          · left
            have h1 : dt.1 ≤ pdW (l.take m) p q := by
              refine le_trans hdt_le_l ?_
              rw [hL]
              exact min_pair_distSq_le (by rw [htl]; omega)
                (by rw [htl]; omega) (by omega)
            rw [pdW_take (by omega) hcase1] at h1
            rw [hmineq2]
            exact h1
          · by_cases hcase2 : m ≤ p
            · left
              have h1 : dt.1 ≤ pdW (l.drop m) (p - m) (q - m) := by
                refine le_trans hdt_le_r ?_
                rw [hR]
                exact min_pair_distSq_le (by rw [hdl]; omega)
                  (by rw [hdl]; omega) (by omega)
              rw [pdW_drop (by omega) (by omega)] at h1
              rw [show m + (p - m) = p from by omega,
                show m + (q - m) = q from by omega] at h1
              rw [hmineq2]
              exact h1
            · have hpm : p < m := by omega
              have hmq : m ≤ q := by omega
              by_cases hdtle : dt.1 ≤ min_pair_distSq l
              · exact Or.inl hdtle
              · right
                obtain ⟨iT, jT, hiT, hjT, hTne, hTeq⟩ := hdtv
                set d2 := (l.getD iT default).distSq (l.getD jT default)
                  with hd2def
                have hd2 : dt.1 = ((d2 : ℚ) : WithTop ℚ) := hTeq
                set δ2 := (l.getD p default).distSq (l.getD q default)
                  with hδ2def
                have hδ2 : min_pair_distSq l = ((δ2 : ℚ) : WithTop ℚ) :=
                  hmineq2
                have hδlt : δ2 < d2 := by
                  have h1 : min_pair_distSq l < dt.1 := not_le.1 hdtle
                  rw [hδ2, hd2] at h1
                  exact_mod_cast h1
                have hδnn : 0 ≤ δ2 := Cluster.distSq_nonneg _ _
                have hLd : ∀ i j, i < m → j < m → i ≠ j →
                    d2 ≤ (l.getD i default).distSq (l.getD j default) := by
                  intro i j hi hj hijne
                  have h1 : dt.1 ≤ pdW (l.take m) i j := by
                    refine le_trans hdt_le_l ?_
                    rw [hL]
                    exact min_pair_distSq_le (by rw [htl]; exact hi)
                      (by rw [htl]; exact hj) hijne
                  rw [pdW_take hi hj] at h1
                  rw [hd2] at h1
                  exact WithTop.coe_le_coe.1 h1
                have hRd : ∀ i j, m ≤ i → m ≤ j → i < l.length →
                    j < l.length → i ≠ j →
                    d2 ≤ (l.getD i default).distSq (l.getD j default) := by
                  intro i j hmi hmj hi hj hijne
                  have h1 : dt.1 ≤ pdW (l.drop m) (i - m) (j - m) := by
                    refine le_trans hdt_le_r ?_
                    rw [hR]
                    exact min_pair_distSq_le (by rw [hdl]; omega)
                      (by rw [hdl]; omega) (by omega)
                  rw [pdW_drop (by omega) (by omega)] at h1
                  rw [show m + (i - m) = i from by omega,
                    show m + (j - m) = j from by omega] at h1
                  rw [hd2] at h1
                  exact WithTop.coe_le_coe.1 h1
                have hG : ∀ i j, i < l.length → j < l.length → i ≠ j →
                    δ2 ≤ (l.getD i default).distSq (l.getD j default) := by
                  intro i j hi hj hijne
                  have h1 : min_pair_distSq l ≤ pdW l i j :=
                    min_pair_distSq_le hi hj hijne
                  rw [hδ2] at h1
                  exact WithTop.coe_le_coe.1 h1
                have hsortmm : (l.getD (m-1) default).horiz_center ≤
                    (l.getD m default).horiz_center :=
                  pairwise_le_getD _ hsort (by omega) (by omega)
                have hmid1 : (l.getD (m-1) default).horiz_center ≤ mid := by
                  rw [hmid]
                  linarith
                have hmid2 : mid ≤ (l.getD m default).horiz_center := by
                  rw [hmid]
                  linarith
                have hpx : (l.getD p default).horiz_center ≤
                    (l.getD (m-1) default).horiz_center :=
                  pairwise_le_getD _ hsort (by omega) (by omega)
                have hqx : (l.getD m default).horiz_center ≤
                    (l.getD q default).horiz_center :=
                  pairwise_le_getD _ hsort (by omega) hqlt2
                have hbetween := sq_le_sq_between mid
                  (l.getD p default).horiz_center
                  (l.getD q default).horiz_center
                  (by linarith) (by linarith)
                have hδ2expand : ((l.getD q default).horiz_center -
                    (l.getD p default).horiz_center)^2 ≤ δ2 := by
                  have e1 : δ2 = ((l.getD p default).horiz_center -
                      (l.getD q default).horiz_center)^2 +
                      ((l.getD p default).vert_center -
                      (l.getD q default).vert_center)^2 := hδ2def
                  have e2 : ((l.getD q default).horiz_center -
                      (l.getD p default).horiz_center)^2 =
                      ((l.getD p default).horiz_center -
                      (l.getD q default).horiz_center)^2 := by ring
                  have e3 := sq_nonneg ((l.getD p default).vert_center -
                      (l.getD q default).vert_center)
                  linarith
                have hlpmem : l.getD p default ∈
                    strip_list l mid ((d2:ℚ) : WithTop ℚ) := by
                  refine strip_list_mem.2 ⟨getD_mem (by omega), ?_⟩
                  have hb : ((l.getD p default).horiz_center - mid)^2 ≤
                      d2 := by
                    have e2 : ((l.getD p default).horiz_center - mid)^2 =
                        (mid - (l.getD p default).horiz_center)^2 := by ring
                    linarith [hbetween.1]
                  exact_mod_cast hb
                have hlqmem : l.getD q default ∈
                    strip_list l mid ((d2:ℚ) : WithTop ℚ) := by
                  refine strip_list_mem.2 ⟨getD_mem hqlt2, ?_⟩
                  have hb : ((l.getD q default).horiz_center - mid)^2 ≤
                      d2 := by
                    linarith [hbetween.2]
                  exact_mod_cast hb
                set s := strip_list l mid ((d2:ℚ) : WithTop ℚ) with hsdef
                have hsnd : s.Nodup := strip_list_nodup hnd
                have hne : l.getD p default ≠ l.getD q default :=
                  nodup_getD_ne hnd (by omega) hqlt2 (by omega)
                set ia := s.indexOf (l.getD p default) with hia
                set ib := s.indexOf (l.getD q default) with hib
                have hialt : ia < s.length := List.indexOf_lt_length.2 hlpmem
                have hiblt : ib < s.length := List.indexOf_lt_length.2 hlqmem
                have hiane : ia ≠ ib := by
                  intro he
                  exact hne ((List.indexOf_inj hlpmem hlqmem).1 he)
                have hga : s.getD ia default = l.getD p default :=
                  getD_indexOf hlpmem
                have hgb : s.getD ib default = l.getD q default :=
                  getD_indexOf hlqmem
                have huv : min ia ib < max ia ib := by omega
                have hvlt : max ia ib < s.length := by omega
                have hpairor : (s.getD (min ia ib) default =
                      l.getD p default ∧
                    s.getD (max ia ib) default = l.getD q default) ∨
                    (s.getD (min ia ib) default = l.getD q default ∧
                    s.getD (max ia ib) default = l.getD p default) := by
                  rcases lt_or_gt_of_ne hiane with h | h
                  · left
                    constructor
                    · rw [show min ia ib = ia from by omega]
                      exact hga
                    · rw [show max ia ib = ib from by omega]
                      exact hgb
                  · right
                    constructor
                    · rw [show min ia ib = ib from by omega]
                      exact hgb
                    · rw [show max ia ib = ia from by omega]
                      exact hga
                have hwin : max ia ib ≤ min ia ib + 3 :=
                  strip_window_three l hnd hsort m mid d2 δ2 (by omega)
                    (by omega) hmid1 hmid2 hδlt hLd hRd hG p q hpm hmq
                    hqlt2 hδ2def.symm (min ia ib) (max ia ib) huv hvlt
                    hpairor
                have hvbound : max ia ib ≤ min (min ia ib + 3)
                    (s.length - 1) := le_min hwin (by omega)
                have hstrip_le := closest_pair_strip_le l mid
                  ((d2:ℚ) : WithTop ℚ) huv hvbound
                have hpduv : pdW s (min ia ib) (max ia ib) =
                    ((δ2 : ℚ) : WithTop ℚ) := by
                  unfold pdW
                  rcases hpairor with ⟨h1, h2⟩ | ⟨h1, h2⟩
                  · rw [h1, h2, ← hδ2def]
                  · rw [h1, h2, Cluster.distSq_comm, ← hδ2def]
                have hdseq : ds = closest_pair_strip l mid
                    ((d2:ℚ) : WithTop ℚ) := by
                  rw [hds, hd2]
                rw [hdseq, hδ2, ← hpduv]
                exact hstrip_le
      split
      · rename_i hif
        apply le_antisymm
        · rcases hup with h | h
          · exact h
          · exact le_trans hif h
        · exact hmin_le_dt
      · rename_i hif
        apply le_antisymm
        · rcases hup with h | h
          · exact le_trans (le_of_not_le hif) h
          · exact h
        · exact hmin_le_ds

/-- C1: on every list of at least two clusters sorted by ascending
horizontal center (with pairwise-distinct clusters, reflecting Python
object identity), `fast_closest_pair` and `slow_closest_pair` return the
same minimum distance, and that distance is the minimum (squared, see
module docstring) center distance over all pairs of distinct indices:
it is a lower bound for every pair and is attained by some pair. -/
theorem claim_C1_fast_equals_slow_minimum (l : List Cluster)
    (h2 : 2 ≤ l.length) (hnd : l.Nodup)
    (hsort : l.Pairwise (fun a b => a.horiz_center ≤ b.horiz_center)) :
    (fast_closest_pair l).1 = (slow_closest_pair l).1 ∧
    (fast_closest_pair l).1 = min_pair_distSq l ∧
    (∀ i j, i < l.length → j < l.length → i ≠ j →
      min_pair_distSq l ≤
        (((l.getD i default).distSq (l.getD j default) : ℚ) :
          WithTop ℚ)) ∧
    (∃ i j, i < l.length ∧ j < l.length ∧ i ≠ j ∧
      min_pair_distSq l =
        (((l.getD i default).distSq (l.getD j default) : ℚ) :
          WithTop ℚ)) := by
  have hfast : (fast_closest_pair l).1 = min_pair_distSq l :=
    fast_fst_eq l.length l rfl hnd hsort
  have hslow : (slow_closest_pair l).1 = min_pair_distSq l :=
    slow_fst_eq l
  refine ⟨by rw [hfast, hslow], hfast, ?_, ?_⟩
  · intro i j hi hj hij
    exact min_pair_distSq_le hi hj hij
  · rcases min_pair_distSq_cases l with htop | ⟨i, j, hi, hj, hij, he⟩
    · exfalso
      have hle := min_pair_distSq_le (l := l) (i := 0) (j := 1)
        (by omega) (by omega) (by omega)
      rw [htop] at hle
      exact absurd (lt_of_le_of_lt hle (pdW_lt_top l 0 1)) (lt_irrefl ⊤)
    · exact ⟨i, j, hi, hj, hij, he⟩

theorem claim_C1_witness :
    (fast_closest_pair [(⟨{0}, 0, 0, 1, 0⟩ : Cluster), ⟨{1}, 2, 1, 1, 0⟩]).1 =
      (slow_closest_pair
        [(⟨{0}, 0, 0, 1, 0⟩ : Cluster), ⟨{1}, 2, 1, 1, 0⟩]).1 ∧
    (fast_closest_pair [(⟨{0}, 0, 0, 1, 0⟩ : Cluster), ⟨{1}, 2, 1, 1, 0⟩]).1 =
      min_pair_distSq [(⟨{0}, 0, 0, 1, 0⟩ : Cluster), ⟨{1}, 2, 1, 1, 0⟩] ∧
    (∀ i j, i < ([(⟨{0}, 0, 0, 1, 0⟩ : Cluster), ⟨{1}, 2, 1, 1, 0⟩]).length →
      j < ([(⟨{0}, 0, 0, 1, 0⟩ : Cluster), ⟨{1}, 2, 1, 1, 0⟩]).length →
      i ≠ j →
      min_pair_distSq [(⟨{0}, 0, 0, 1, 0⟩ : Cluster), ⟨{1}, 2, 1, 1, 0⟩] ≤
        (((([(⟨{0}, 0, 0, 1, 0⟩ : Cluster), ⟨{1}, 2, 1, 1, 0⟩]).getD i
            default).distSq
          (([(⟨{0}, 0, 0, 1, 0⟩ : Cluster), ⟨{1}, 2, 1, 1, 0⟩]).getD j
            default) : ℚ) : WithTop ℚ)) ∧
    (∃ i j, i < ([(⟨{0}, 0, 0, 1, 0⟩ : Cluster), ⟨{1}, 2, 1, 1, 0⟩]).length ∧
      j < ([(⟨{0}, 0, 0, 1, 0⟩ : Cluster), ⟨{1}, 2, 1, 1, 0⟩]).length ∧
      i ≠ j ∧
      min_pair_distSq [(⟨{0}, 0, 0, 1, 0⟩ : Cluster), ⟨{1}, 2, 1, 1, 0⟩] =
        (((([(⟨{0}, 0, 0, 1, 0⟩ : Cluster), ⟨{1}, 2, 1, 1, 0⟩]).getD i
            default).distSq
          (([(⟨{0}, 0, 0, 1, 0⟩ : Cluster), ⟨{1}, 2, 1, 1, 0⟩]).getD j
            default) : ℚ) : WithTop ℚ)) :=
  claim_C1_fast_equals_slow_minimum
    [⟨{0}, 0, 0, 1, 0⟩, ⟨{1}, 2, 1, 1, 0⟩]
    (by decide) (by decide) (by decide)
